import Mathlib

/-!
Verification of `util/combine_src.py`, the Duktape single-file amalgamation
tool.  The Python program is shallowly embedded below: each Python function
has a corresponding Lean definition with the same name where possible
(`processIncludes`, `createCombined`, the nested `emit` and `processHeader`
helpers, `findFile`, and the relevant part of `main`).

Modelling decisions:
* A Python `Line` object carries `filename`, `lineno`, `data`; a `File`
  carries `filename` (basename) and its `lines`.  Both are translated
  directly.
* The output buffer `res` in `createCombined` is a Python list of strings.
  In the model each appended entry is an `OutLine` remembering whether it
  was produced by `res.append('#line %d "%s"' ...)` (`OutLine.mark`), by
  `res.append(line.data)` for a `Line` object (`OutLine.content`), or by
  `res.append(<literal string>)` (`OutLine.lit`).  `render` maps each
  `OutLine` to exactly the string the Python code appends, so
  `(res.map render)` is the Python list and the provenance tags add no
  behaviour.
* Python exceptions (`raise Exception('cannot parse ...')`, failed
  `assert`, `None += 1` TypeError, `list.index` ValueError) are modelled
  with `Except CErr`.
* The recursion of `processHeader` is not structural; the model takes a
  fuel argument and returns `CErr.outOfFuel` when it runs out.  The
  theorem for claim C5 shows that `number of files + 1` fuel never runs
  out, so the fueled model with that fuel is the unfueled Python program.
* `main` reads a directory listing and file contents; the model takes the
  listing as a `List String` and the file contents as a function
  `String → List String` (the file split into newline-stripped lines,
  matching `read`).
-/

namespace Duk

/-- Errors of the Python program: `raise Exception('cannot parse include
directive')`, a failed `assert`, the `TypeError` from `None += 1` in
`emit`, the `ValueError` from `filelist.index(fn)`, and fuel exhaustion
(which only the fueled model can produce). -/
inductive CErr where
  | parseError
  | assertFail
  | typeError
  | valueError
  | outOfFuel
deriving DecidableEq, Repr

/-- Python class `Line`: original file basename, 1-based line number, text
with the trailing newline stripped. -/
structure Line where
  filename : String
  lineno : Nat
  data : String
deriving DecidableEq, Repr

/-- Python class `File`: basename plus its ordered lines. -/
structure File where
  filename : String
  lines : List Line
deriving DecidableEq, Repr

/-- An entry of the output buffer `res`, tagged with which `res.append`
produced it (see module comment); `render` recovers the appended string. -/
inductive OutLine where
  | mark : Nat → String → OutLine
  | content : Line → OutLine
  | lit : String → OutLine
deriving DecidableEq, Repr

/-- The string the Python code appends to `res` for each `OutLine`. -/
def render : OutLine → String
  | .mark n f => "#line " ++ toString n ++ " \"" ++ f ++ "\""
  | .content l => l.data
  | .lit s => s

/-- Characters before the first occurrence of `stop`, or `none` when
`stop` does not occur (used for the lazy groups of the two regexes). -/
def upToChar (stop : Char) : List Char → Option (List Char)
  | [] => none
  | c :: rest => if c = stop then some [] else (upToChar stop rest).map (c :: ·)

/-- `re_extinc = ^#include <(.*?)>.*$` : the line must start with
`#include <` and contain a later `>`; the group is everything up to the
first `>`. -/
def extincMatch (s : String) : Option String :=
  let cs := s.toList
  if cs.take 10 = "#include <".toList then
    (upToChar '>' (cs.drop 10)).map (fun g => String.mk g)
  else none

/-- `re_intinc = ^#include \"(duk.*?)\".*$` : the line must start with
`#include "duk` and contain a later `"`; the group is `duk` plus
everything up to the first following `"`. -/
def intincMatch (s : String) : Option String :=
  let cs := s.toList
  if cs.take 13 = ("#include \"duk").toList then
    (upToChar '\"' (cs.drop 13)).map (fun g => String.mk ("duk".toList ++ g))
  else none

/-- `line.data.startswith('#include')`. -/
def startsWithInclude (s : String) : Bool :=
  s.toList.take 8 = "#include".toList

/-- Python `findFile`: first file in the list with the given basename. -/
def findFile (files : List File) (filename : String) : Option File :=
  files.find? (fun f => f.filename = filename)

/-- Python `processIncludes`: scan one file's lines; every line starting
with `#include` must match the external or the internal regex, otherwise
`Exception('cannot parse include directive')` aborts the run.  Returns the
external and internal include names of this file in order of appearance. -/
def processIncludesFrom (lines : List Line) (ext int : List String) :
    Except CErr (List String × List String) :=
  match lines with
  | [] => .ok (ext, int)
  | l :: rest =>
    if startsWithInclude l.data then
      match extincMatch l.data with
      | some n => processIncludesFrom rest (ext ++ [n]) int
      | none =>
        match intincMatch l.data with
        | some n => processIncludesFrom rest ext (int ++ [n])
        | none => .error .parseError
    else
      processIncludesFrom rest ext int

def processIncludes (f : File) : Except CErr (List String × List String) :=
  processIncludesFrom f.lines [] []

/-- The mutable state around the nested `emit`: the output buffer `res`
and `emit_state = [curr_filename, curr_lineno]`, both components starting
as `None`. -/
structure EmitSt where
  res : List OutLine
  fname : Option String
  lineno : Option Nat
deriving DecidableEq, Repr

/-- `emit` on a `Line` object: append a `#line` marker unless the line's
origin equals `emit_state`, append the data, set `emit_state` to
`(filename, lineno + 1)`. -/
def emitLine (st : EmitSt) (l : Line) : EmitSt :=
  if st.fname = some l.filename ∧ st.lineno = some l.lineno then
    { res := st.res ++ [.content l],
      fname := some l.filename, lineno := some (l.lineno + 1) }
  else
    { res := st.res ++ [.mark l.lineno l.filename, .content l],
      fname := some l.filename, lineno := some (l.lineno + 1) }

/-- `emit` on a plain string: append it and do `emit_state[1] += 1`, which
raises `TypeError` when `emit_state[1]` is still `None`. -/
def emitStr (st : EmitSt) (s : String) : Except CErr EmitSt :=
  match st.lineno with
  | none => .error .typeError
  | some n => .ok { res := st.res ++ [.lit s], fname := st.fname, lineno := some (n + 1) }

/-- The placeholder comment `'/* already included: %s */' % f_inc.filename`. -/
def alreadyIncluded (n : String) : String :=
  "/* already included: " ++ n ++ " */"

/-- The comment `'/* include removed: %s */' % incname`. -/
def includeRemoved (n : String) : String :=
  "/* include removed: " ++ n ++ " */"

/-- The nested `processHeader`, flattened over the lines of the header
being expanded.  `fuel` bounds the recursion depth (see module comment).
For every line: a non-include line (or an include of the kept headers
`duktape.h` / `duk_custom.h`) is emitted as is; otherwise the named file
is resolved (`assert(f_inc)`), and it is either reported with a
placeholder comment (already processed) or marked processed and expanded
recursively in place. -/
def processLines (fuel : Nat) (files : List File) (lines : List Line)
    (processed : List String) (st : EmitSt) :
    Except CErr (List String × EmitSt) :=
  match lines with
  | [] => .ok (processed, st)
  | l :: rest =>
    match intincMatch l.data with
    | none => processLines fuel files rest processed (emitLine st l)
    | some incname =>
      if incname = "duktape.h" ∨ incname = "duk_custom.h" then
        processLines fuel files rest processed (emitLine st l)
      else
        match findFile files incname with
        | none => .error .assertFail
        | some finc =>
          if finc.filename ∈ processed then
            match emitStr st (alreadyIncluded finc.filename) with
            | .error e => .error e
            | .ok st2 => processLines fuel files rest processed st2
          else
            match _hfuel : fuel with
            | 0 => .error .outOfFuel
            | fuel' + 1 =>
              match processLines fuel' files finc.lines (finc.filename :: processed) st with
              | .error e => .error e
              | .ok (p2, st2) => processLines fuel files rest p2 st2
termination_by (fuel, lines.length)
decreasing_by
  all_goals simp_wf
  all_goals omega

/-- One pass of `processHeader` over a line list, with the recursive
descent abstracted as `recur`: the body of the loop of `processHeader`,
line for line as in `processLines`. -/
def expandStep (files : List File)
    (recur : List Line → List String → EmitSt → Except CErr (List String × EmitSt)) :
    List Line → List String → EmitSt → Except CErr (List String × EmitSt)
  | [], processed, st => .ok (processed, st)
  | l :: rest, processed, st =>
    match intincMatch l.data with
    | none => expandStep files recur rest processed (emitLine st l)
    | some incname =>
      if incname = "duktape.h" ∨ incname = "duk_custom.h" then
        expandStep files recur rest processed (emitLine st l)
      else
        match findFile files incname with
        | none => .error .assertFail
        | some finc =>
          if finc.filename ∈ processed then
            match emitStr st (alreadyIncluded finc.filename) with
            | .error e => .error e
            | .ok st2 => expandStep files recur rest processed st2
          else
            match recur finc.lines (finc.filename :: processed) st with
            | .error e => .error e
            | .ok (p2, st2) => expandStep files recur rest p2 st2

/-- Structural-recursion formulation of `processLines` (recursion on the
fuel only, the line loop factored into `expandStep`); proven equal to
`processLines` below and used to evaluate concrete runs. -/
def processLinesE : Nat → List File → List Line → List String → EmitSt →
    Except CErr (List String × EmitSt)
  | 0, files => expandStep files (fun _ _ _ => .error .outOfFuel)
  | fuel + 1, files => expandStep files (processLinesE fuel files)

/-- `os.path.splitext(s)[1]`: the extension starting at the last dot,
empty when there is no dot or only leading dots precede it. -/
def splitextExt (s : String) : String :=
  let cs := s.toList
  match (cs.reverse.findIdx? (· = '.')) with
  | none => ""
  | some j =>
    let i := cs.length - 1 - j
    if (cs.take i).all (· = '.') then "" else String.mk (cs.drop i)

/-- The body-file emission loop over one file's lines: internal-include
directives become an "include removed" comment, everything else is
emitted verbatim. -/
def emitFileLines (lines : List Line) (st : EmitSt) : Except CErr EmitSt :=
  match lines with
  | [] => .ok st
  | l :: rest =>
    match intincMatch l.data with
    | none => emitFileLines rest (emitLine st l)
    | some incname =>
      match emitStr st (includeRemoved incname) with
      | .error e => .error e
      | .ok st2 => emitFileLines rest st2

/-- The final loop of `createCombined`: emit every file not in the
processed set, in list order. -/
def emitBody (files : List File) (processed : List String) (st : EmitSt) :
    Except CErr EmitSt :=
  match files with
  | [] => .ok st
  | f :: rest =>
    if f.filename ∈ processed then emitBody rest processed st
    else
      match emitFileLines f.lines st with
      | .error e => .error e
      | .ok st2 => emitBody rest processed st2

/-- `processed[f.filename] = True` for every file with extension `.h`
("Mark all internal headers processed"). -/
def forceMarkHeaders (files : List File) (processed : List String) : List String :=
  files.foldl (fun p f => if splitextExt f.filename = ".h" then f.filename :: p else p) processed

/-- Banner metadata handed to `createCombined`: version, commit, describe
tag, and the lines of `LICENSE.txt` / `AUTHORS.rst`. -/
structure Meta where
  dukVersion : Nat
  gitCommit : String
  gitDescribe : String
  licenseLines : List String
  authorsLines : List String
deriving Repr

/-- The banner plus license/authors block that `createCombined` appends to
`res` before any `emit` call (each entry a plain string, hence `.lit`). -/
def bannerRes (m : Meta) : List OutLine :=
  ([ "/*",
     " *  Single file autogenerated distributable for Duktape "
       ++ toString (m.dukVersion / 10000) ++ "."
       ++ toString (m.dukVersion / 100 % 100) ++ "."
       ++ toString (m.dukVersion % 100) ++ ".",
     " *  Git commit " ++ m.gitCommit ++ " (" ++ m.gitDescribe ++ ").",
     " *",
     " *  See Duktape AUTHORS.rst and LICENSE.txt for copyright and",
     " *  licensing information.",
     " */",
     "",
     "/* LICENSE.txt */" ]
   ++ m.licenseLines.map (fun s => s.trim)
   ++ ["/* AUTHORS.rst */"]
   ++ m.authorsLines.map (fun s => s.trim)).map OutLine.lit

/-- Python `createCombined`: banner, then recursive expansion starting
from `duk_internal.h` (`assert(f_dukint)`), then force-marking of all
headers, then the body pass.  Returns the final `res`. -/
def createCombined (fuel : Nat) (files : List File) (m : Meta) :
    Except CErr (List OutLine) :=
  let st0 : EmitSt := { res := bannerRes m, fname := none, lineno := none }
  match findFile files "duk_internal.h" with
  | none => .error .assertFail
  | some root =>
    match processLines fuel files root.lines [] st0 with
    | .error e => .error e
    | .ok (processed, st1) =>
      match emitBody files (forceMarkHeaders files processed) st1 with
      | .error e => .error e
      | .ok st2 => .ok st2.res

/-- `'\n'.join(res) + '\n'`. -/
def combinedOutput (fuel : Nat) (files : List File) (m : Meta) :
    Except CErr String :=
  (createCombined fuel files m).map
    (fun res => String.intercalate "\n" (res.map render) ++ "\n")

/-- The hardcoded `handpick` list of `main`. -/
def handpick : List String :=
  [ "duk_strings.c",
    "duk_debug_macros.c",
    "duk_builtins.c",
    "duk_error_macros.c",
    "duk_unicode_support.c",
    "duk_util_misc.c",
    "duk_util_hashprime.c",
    "duk_hobject_class.c" ]

/-- `idx = filelist.index(fn); filelist.insert(0, filelist.pop(idx))`:
move the first occurrence of `fn` to the front; `ValueError` when `fn` is
absent. -/
def moveToFront (l : List String) (fn : String) : Except CErr (List String) :=
  if fn ∈ l then .ok (fn :: l.erase fn) else .error .valueError

/-- `handpick.reverse()` followed by the move-to-front loop, for an
arbitrary priority list. -/
def applyPriority (priority : List String) (l : List String) :
    Except CErr (List String) :=
  priority.reverse.foldlM moveToFront l

/-- Lexicographic comparison of character lists: the order Python's
`filelist.sort()` uses on (ASCII) file names. -/
def lexLe : List Char → List Char → Bool
  | [], _ => true
  | _ :: _, [] => false
  | a :: as, b :: bs => if a = b then lexLe as bs else decide (a < b)

/-- Python string comparison, character-wise lexicographic. -/
def strLe (a b : String) : Prop :=
  lexLe a.data b.data = true

instance : DecidableRel strLe := fun a b => by
  unfold strLe; infer_instance

/-- The ordering policy of `main`: sort the directory listing
(`filelist.sort()`), then move each priority name to the front, last
priority name first. -/
def orderFiles (priority : List String) (listing : List String) :
    Except CErr (List String) :=
  applyPriority priority (List.insertionSort strLe listing)

/-- Python `read`: number the content lines from 1 and tag them with the
file's basename (trailing newlines already stripped in the content). -/
def mkLines (fn : String) (content : List String) : List Line :=
  (List.range content.length).zip content
    |>.map (fun p => { filename := fn, lineno := p.1 + 1, data := p.2 })

/-- The duplicate-avoiding accumulation loop of `main`
(`if i in extinc: continue; extinc.append(i)`). -/
def addNew (acc : List String) (xs : List String) : List String :=
  xs.foldl (fun a i => if i ∈ a then a else a ++ [i]) acc

/-- The `Process #include statements` loop of `main` over all files,
accumulating the duplicate-free external and internal include names. -/
def allIncludesFrom (files : List File) (acc : List String × List String) :
    Except CErr (List String × List String) :=
  match files with
  | [] => .ok acc
  | f :: rest =>
    match processIncludes f with
    | .error e => .error e
    | .ok r => allIncludesFrom rest (addNew acc.1 r.1, addNew acc.2 r.2)

def allIncludes (files : List File) : Except CErr (List String × List String) :=
  allIncludesFrom files ([], [])

/-- Python `main` after argument parsing: sort the listing, move the
handpicked names to the front, keep only `.c`/`.h` entries, read them,
scan all includes (aborting on a parse error), and produce the combined
output.  The fuel `files.length + 1` never runs out (theorem for C5), so
this is the unfueled program.  The returned string is what `main` writes
to the output file; an error means `main` raises before the output file
is opened. -/
def mainModel (listing : List String) (content : String → List String)
    (m : Meta) : Except CErr String :=
  match orderFiles handpick listing with
  | .error e => .error e
  | .ok picked =>
    let files := (picked.filter (fun fn =>
        splitextExt fn = ".c" ∨ splitextExt fn = ".h")).map
        (fun fn => File.mk fn (mkLines fn (content fn)))
    match allIncludes files with
    | .error e => .error e
    | .ok _ => combinedOutput (files.length + 1) files m

/-! Observation functions used to state the theorems.  They do not occur
in the program; they only read the model's output. -/

/-- The original source lines among the output entries (the entries
produced by `res.append(line.data)` for a `Line` object). -/
def contentsOf (res : List OutLine) : List Line :=
  res.filterMap (fun o => match o with | .content l => some l | _ => none)

/-- The lines of the file with basename `h`, empty when it is absent. -/
def fileLines (files : List File) (h : String) : List Line :=
  match findFile files h with
  | some f => f.lines
  | none => []

/-- The lines of a header that the expander emits as content: everything
except internal-include directives of names other than `duktape.h` and
`duk_custom.h`. -/
def emittable (lines : List Line) : List Line :=
  lines.filter (fun l =>
    match intincMatch l.data with
    | none => true
    | some n => decide (n = "duktape.h" ∨ n = "duk_custom.h"))

/-- How many lines of `lines` are expandable internal-include directives
naming `n` (the directives on which the expander either recurses into `n`
or emits an already-included placeholder for `n`). -/
def encLines (lines : List Line) (n : String) : Nat :=
  (lines.filter (fun l =>
    decide (intincMatch l.data = some n
      ∧ ¬(n = "duktape.h" ∨ n = "duk_custom.h")))).length

/-- Number of files whose basename is not yet in the processed set. -/
def unprocCount (files : List File) (processed : List String) : Nat :=
  (files.filter (fun f => decide (f.filename ∉ processed))).length

/-- Well-formed input: every line is tagged with its own file's basename
(as `read` guarantees) and basenames are unique (one directory). -/
def wfFiles (files : List File) : Prop :=
  (∀ f ∈ files, ∀ l ∈ f.lines, l.filename = f.filename)
  ∧ (files.map File.filename).Nodup

instance (files : List File) : Decidable (wfFiles files) := by
  unfold wfFiles; infer_instance

/-- Structural-recursion clone of `createCombined`, used to evaluate
concrete runs; proven equal to `createCombined` below. -/
def createCombinedE (fuel : Nat) (files : List File) (m : Meta) :
    Except CErr (List OutLine) :=
  let st0 : EmitSt := { res := bannerRes m, fname := none, lineno := none }
  match findFile files "duk_internal.h" with
  | none => .error .assertFail
  | some root =>
    match processLinesE fuel files root.lines [] st0 with
    | .error e => .error e
    | .ok (processed, st1) =>
      match emitBody files (forceMarkHeaders files processed) st1 with
      | .error e => .error e
      | .ok st2 => .ok st2.res

/-- The cursor-advance rule of `emit`, read off the output: a content
line with origin `(f, n)` sets the cursor to `(f, n + 1)`; a synthetic
literal line increments the expected line number and keeps the file; a
location marker changes nothing by itself. -/
def bumpCursor : Option String × Option Nat → Option String × Option Nat
  | (f, n) => (f, n.map (fun k => k + 1))

def replay (s : Option String × Option Nat) : List OutLine → Option String × Option Nat
  | [] => s
  | .lit _ :: rest => replay (bumpCursor s) rest
  | .content l :: rest => replay (some l.filename, some (l.lineno + 1)) rest
  | .mark _ _ :: rest => replay s rest

/-- Marker-correctness checker over an output list, given the starting
cursor: every content line not preceded by a marker must sit exactly at
the cursor's expected origin, every marker must carry the origin of the
content line that immediately follows it and may only appear when that
origin differs from the cursor's expectation, and the cursor advances as
in `replay`. -/
def markOk (s : Option String × Option Nat) : List OutLine → Bool
  | [] => true
  | .lit _ :: rest => markOk (bumpCursor s) rest
  | .mark n f :: .content l :: rest =>
      decide (l.filename = f) && decide (l.lineno = n)
        && !(decide (s = (some f, some n)))
        && markOk (some f, some (n + 1)) rest
  | .mark _ _ :: _ => false
  | .content l :: rest =>
      decide (s = (some l.filename, some l.lineno))
        && markOk (some l.filename, some (l.lineno + 1)) rest

/-- Header with content both before and after an include that will be
skipped as already included (its target includes this header back). -/
def hdrKA : File := File.mk "duk_a.h"
  [Line.mk "duk_a.h" 1 "int a;",
   Line.mk "duk_a.h" 2 "#include \"duk_b.h\"",
   Line.mk "duk_a.h" 3 "int tail;"]

def hdrKB : File := File.mk "duk_b.h" [Line.mk "duk_b.h" 1 "#include \"duk_a.h\""]

def rootK : File := File.mk "duk_internal.h"
  [Line.mk "duk_internal.h" 1 "#include \"duk_a.h\""]

def filesK : List File := [hdrKA, hdrKB, rootK]

/-- Trivial banner metadata for concrete runs. -/
def metaZ : Meta := Meta.mk 0 "" "" [] []

/-- A header never included by anyone, carrying an external include. -/
def hdrU : File := File.mk "duk_unused.h" [Line.mk "duk_unused.h" 1 "#include <stdio.h>"]

/-- Root header carrying the same external include verbatim. -/
def rootU : File := File.mk "duk_internal.h"
  [Line.mk "duk_internal.h" 1 "#include <stdio.h>"]

def filesU : List File := [hdrU, rootU]

/-- The expansion result of the `filesU` scenario. -/
def stU : EmitSt := EmitSt.mk
  [OutLine.mark 1 "duk_internal.h",
   OutLine.content (Line.mk "duk_internal.h" 1 "#include <stdio.h>")]
  (some "duk_internal.h") (some 2)

/-- A body file whose first line is a stray internal include of a header
absorbed during expansion. -/
def bodyStray : File := File.mk "a.c" [Line.mk "a.c" 1 "#include \"duk_x.h\""]

/-- An empty absorbed header and a root that only includes it, so the
whole expansion emits no line and the emission cursor stays `None`. -/
def hdrX : File := File.mk "duk_x.h" []

def rootS : File := File.mk "duk_internal.h"
  [Line.mk "duk_internal.h" 1 "#include \"duk_x.h\""]

def filesS : List File := [bodyStray, rootS, hdrX]

/-! Concrete scenarios. -/

/-- Header B of the cycle-safety scenario: plain content. -/
def hdrB : File := File.mk "duk_b.h" [Line.mk "duk_b.h" 1 "int b;"]

/-- Header C: includes B (which the root has already included) and then
has content. -/
def hdrC : File := File.mk "duk_c.h"
  [Line.mk "duk_c.h" 1 "#include \"duk_b.h\"", Line.mk "duk_c.h" 2 "int c;"]

/-- Root header including B then C. -/
def rootBC : File := File.mk "duk_internal.h"
  [Line.mk "duk_internal.h" 1 "#include \"duk_b.h\"",
   Line.mk "duk_internal.h" 2 "#include \"duk_c.h\""]

def filesBC : List File := [hdrB, hdrC, rootBC]

/-- The expansion result of the `filesBC` scenario. -/
def stBC : EmitSt := EmitSt.mk
  [OutLine.mark 1 "duk_b.h",
   OutLine.content (Line.mk "duk_b.h" 1 "int b;"),
   OutLine.lit "/* already included: duk_b.h */",
   OutLine.mark 2 "duk_c.h",
   OutLine.content (Line.mk "duk_c.h" 2 "int c;")]
  (some "duk_c.h") (some 3)

/-- A header that includes the root header back. -/
def hdrA : File := File.mk "duk_a.h" [Line.mk "duk_a.h" 1 "#include \"duk_internal.h\""]

/-- Root header with one content line, then an include of `hdrA`, which
includes the root back. -/
def rootA : File := File.mk "duk_internal.h"
  [Line.mk "duk_internal.h" 1 "int root;", Line.mk "duk_internal.h" 2 "#include \"duk_a.h\""]

def filesA : List File := [hdrA, rootA]

/-- Two headers that both include the root back. -/
def hdrB2 : File := File.mk "duk_b.h" [Line.mk "duk_b.h" 1 "#include \"duk_internal.h\""]

def rootAB : File := File.mk "duk_internal.h"
  [Line.mk "duk_internal.h" 1 "int r;",
   Line.mk "duk_internal.h" 2 "#include \"duk_a.h\"",
   Line.mk "duk_internal.h" 3 "#include \"duk_b.h\""]

def filesAB : List File := [hdrA, hdrB2, rootAB]

/-- The expansion result of the `filesAB` scenario. -/
def stAB : EmitSt := EmitSt.mk
  [OutLine.mark 1 "duk_internal.h",
   OutLine.content (Line.mk "duk_internal.h" 1 "int r;"),
   OutLine.mark 1 "duk_internal.h",
   OutLine.content (Line.mk "duk_internal.h" 1 "int r;"),
   OutLine.lit "/* already included: duk_a.h */",
   OutLine.lit "/* already included: duk_internal.h */",
   OutLine.lit "/* already included: duk_b.h */"]
  (some "duk_internal.h") (some 5)

/-! Ordering-policy lemmas (claim C6) and determinism (claim C3). -/

theorem lexLe_total : ∀ as bs : List Char, lexLe as bs = true ∨ lexLe bs as = true
  | [], _ => by left; rfl
  | _ :: _, [] => by right; rfl
  | a :: as, b :: bs => by
    by_cases hab : a = b
    · subst hab
      rcases lexLe_total as bs with h | h
      · left; simpa [lexLe] using h
      · right; simpa [lexLe] using h
    · rcases lt_or_gt_of_ne hab with h | h
      · left; simp [lexLe, hab, h]
      · right; simp [lexLe, Ne.symm hab, h]

theorem lexLe_trans : ∀ as bs cs : List Char,
    lexLe as bs = true → lexLe bs cs = true → lexLe as cs = true
  | [], _, _, _, _ => rfl
  | _ :: _, [], _, h, _ => by simp [lexLe] at h
  | _ :: _, _ :: _, [], _, h => by simp [lexLe] at h
  | a :: as, b :: bs, c :: cs, h1, h2 => by
    by_cases hab : a = b <;> by_cases hbc : b = c
    · subst hab; subst hbc
      simp only [lexLe, if_pos rfl] at h1 h2 ⊢
      exact lexLe_trans as bs cs h1 h2
    · subst hab
      simp only [lexLe, if_pos rfl, if_neg hbc, decide_eq_true_eq] at h2 ⊢
      simp [if_neg hbc, h2]
    · subst hbc
      simp only [lexLe, if_neg hab, decide_eq_true_eq] at h1
      simp [lexLe, if_neg hab, h1]
    · simp only [lexLe, if_neg hab, if_neg hbc, decide_eq_true_eq] at h1 h2
      have hac : a < c := lt_trans h1 h2
      simp [lexLe, ne_of_lt hac, hac]

theorem lexLe_antisymm : ∀ as bs : List Char,
    lexLe as bs = true → lexLe bs as = true → as = bs
  | [], [], _, _ => rfl
  | [], _ :: _, _, h2 => by simp [lexLe] at h2
  | _ :: _, [], h1, _ => by simp [lexLe] at h1
  | a :: as, b :: bs, h1, h2 => by
    by_cases hab : a = b
    · subst hab
      simp only [lexLe, if_pos rfl] at h1 h2
      rw [lexLe_antisymm as bs h1 h2]
    · simp only [lexLe, if_neg hab, if_neg (Ne.symm hab), decide_eq_true_eq] at h1 h2
      exact absurd (lt_trans h1 h2) (lt_irrefl a)

instance : IsTotal String strLe := ⟨fun a b => lexLe_total a.data b.data⟩

instance : IsTrans String strLe := ⟨fun a b c => lexLe_trans a.data b.data c.data⟩

instance : IsAntisymm String strLe :=
  ⟨fun a b h1 h2 => String.ext (lexLe_antisymm a.data b.data h1 h2)⟩

theorem applyPriority_ok : ∀ (pr s : List String), pr.Nodup → s.Nodup →
    (∀ p ∈ pr, p ∈ s) →
    applyPriority pr s = .ok (pr ++ s.filter (fun x => decide (x ∉ pr)))
  | [], s, _, _, _ => by
    unfold applyPriority
    rw [List.reverse_nil, List.foldlM_nil]
    show Except.ok s = _
    simp
  | p :: pr, s, hnd, hs, hmem => by
    have hpnotpr : p ∉ pr := (List.nodup_cons.mp hnd).1
    have hps : p ∈ s := hmem p (List.mem_cons_self p pr)
    have ih := applyPriority_ok pr s (List.nodup_cons.mp hnd).2 hs
      (fun q hq => hmem q (List.mem_cons_of_mem p hq))
    unfold applyPriority at ih ⊢
    rw [List.reverse_cons, List.foldlM_append, ih]
    have hpfil : p ∈ s.filter (fun x => decide (x ∉ pr)) :=
      List.mem_filter.mpr ⟨hps, by simpa using hpnotpr⟩
    have hpL : p ∈ pr ++ s.filter (fun x => decide (x ∉ pr)) :=
      List.mem_append.mpr (Or.inr hpfil)
    simp only [List.foldlM_cons, List.foldlM_nil, Bind.bind, Except.bind, moveToFront,
      if_pos hpL]
    have herase : (pr ++ s.filter (fun x => decide (x ∉ pr))).erase p
        = pr ++ (s.filter (fun x => decide (x ∉ pr))).erase p :=
      List.erase_append_right _ hpnotpr
    have hfilnd : (s.filter (fun x => decide (x ∉ pr))).Nodup := hs.filter _
    have herase2 : (s.filter (fun x => decide (x ∉ pr))).erase p
        = s.filter (fun x => decide (x ∉ p :: pr)) := by
      rw [hfilnd.erase_eq_filter, List.filter_filter]
      apply List.filter_congr
      intro x _
      by_cases hxp : x = p
      · subst hxp; simp
      · by_cases hxpr : x ∈ pr <;> simp [hxp, hxpr]
    rw [herase, herase2]
    rfl

/-- C6: the body-file processing order is the lexicographically sorted
directory listing with each priority-list name relocated to the front
(priority names first, in their specified order, remaining names in
lexicographic order); in particular body files `[b.c, a.c, z.c]` with
priority list `[z.c]` give the order `[z.c, a.c, b.c]`. -/
theorem C6_ordering :
    (∀ priority listing : List String, priority.Nodup → listing.Nodup →
      (∀ p ∈ priority, p ∈ listing) →
      orderFiles priority listing
        = .ok (priority
            ++ (List.insertionSort strLe listing).filter (fun x => decide (x ∉ priority))))
    ∧ orderFiles ["z.c"] ["b.c", "a.c", "z.c"] = .ok ["z.c", "a.c", "b.c"] := by
  constructor
  · intro pr listing hnd hl hm
    unfold orderFiles
    exact applyPriority_ok pr _ hnd ((List.perm_insertionSort strLe listing).symm.nodup hl)
      (fun p hp => (List.perm_insertionSort strLe listing).symm.mem_iff.mp (hm p hp) )
  · rfl

/-- Witness for C6 at a concrete instance. -/
theorem C6_ordering_witness :
    orderFiles ["b.c"] ["a.c", "b.c"] = .ok ["b.c", "a.c"] := by
  have h := C6_ordering.1 ["b.c"] ["a.c", "b.c"] (by decide) (by decide) (by decide)
  simpa using h

/-- C10: emitting a synthetic literal string appends exactly one output
line, increments the cursor's line number and leaves its file name
unchanged; emitting a `Line` with origin `(name, n)` sets the cursor to
exactly `(name, n + 1)` whether or not a marker was inserted, and appends
at most two output lines; nothing else in the emit state changes. -/
theorem C10_emit_effects (st : EmitSt) (l : Line) (s : String) (n : Nat)
    (h : st.lineno = some n) :
    (emitLine st l).fname = some l.filename
    ∧ (emitLine st l).lineno = some (l.lineno + 1)
    ∧ (∃ d, (emitLine st l).res = st.res ++ d ∧ d.length ≤ 2)
    ∧ emitStr st s = .ok (EmitSt.mk (st.res ++ [.lit s]) st.fname (some (n + 1))) := by
  refine ⟨?_, ?_, ?_, ?_⟩
  · unfold emitLine; split <;> rfl
  · unfold emitLine; split <;> rfl
  · unfold emitLine; split
    · exact ⟨[.content l], rfl, by simp⟩
    · exact ⟨[.mark l.lineno l.filename, .content l], rfl, by simp⟩
  · simp [emitStr, h]

theorem insertionSort_eq_of_perm {l1 l2 : List String} (h : l1.Perm l2) :
    List.insertionSort strLe l1 = List.insertionSort strLe l2 :=
  List.eq_of_perm_of_sorted
    ((List.perm_insertionSort strLe l1).trans (h.trans (List.perm_insertionSort strLe l2).symm))
    (List.sorted_insertionSort strLe l1) (List.sorted_insertionSort strLe l2)

/-- C3: two runs over byte-identical input trees (same multiset of
directory entries, same contents) and identical banner metadata produce
byte-identical output.  The listing may arrive from the OS in any order;
`filelist.sort()` canonicalises it, and everything afterwards is a pure
function of the sorted listing, the contents and the metadata. -/
theorem C3_determinism (l1 l2 : List String) (content : String → List String)
    (m : Meta) (h : l1.Perm l2) :
    mainModel l1 content m = mainModel l2 content m := by
  unfold mainModel orderFiles
  rw [insertionSort_eq_of_perm h]

/-- Witness for C3 on two concrete permuted listings. -/
theorem C3_determinism_witness :
    mainModel ["a.c", "b.c"] (fun _ => []) (Meta.mk 10500 "c" "d" [] [])
      = mainModel ["b.c", "a.c"] (fun _ => []) (Meta.mk 10500 "c" "d" [] []) :=
  C3_determinism ["a.c", "b.c"] ["b.c", "a.c"] (fun _ => [])
    (Meta.mk 10500 "c" "d" [] []) (by decide)

/-! Fail-fast on malformed includes (claim C4). -/

theorem processIncludesFrom_error_of_bad : ∀ (lines : List Line) (e i : List String),
    (∃ l ∈ lines, startsWithInclude l.data = true
      ∧ extincMatch l.data = none ∧ intincMatch l.data = none) →
    processIncludesFrom lines e i = .error .parseError
  | [], _, _, h => absurd h (by simp)
  | l :: rest, e, i, h => by
    unfold processIncludesFrom
    rcases h with ⟨l0, hl0, hsw, hext, hint⟩
    rcases List.mem_cons.mp hl0 with rfl | hl0r
    · rw [hsw, hext, hint]
      simp
    · by_cases hswl : startsWithInclude l.data = true
      · rw [hswl]
        simp only [if_pos rfl]
        match hE : extincMatch l.data with
        | some n => exact processIncludesFrom_error_of_bad rest _ _ ⟨l0, hl0r, hsw, hext, hint⟩
        | none =>
          match hI : intincMatch l.data with
          | some n => exact processIncludesFrom_error_of_bad rest _ _ ⟨l0, hl0r, hsw, hext, hint⟩
          | none => rfl
      · rw [Bool.not_eq_true] at hswl
        rw [hswl]
        simp only [Bool.false_eq_true, if_false]
        exact processIncludesFrom_error_of_bad rest _ _ ⟨l0, hl0r, hsw, hext, hint⟩

theorem processIncludesFrom_error_only : ∀ (lines : List Line) (e i : List String) (err : CErr),
    processIncludesFrom lines e i = .error err → err = .parseError
  | [], _, _, _, h => by simp [processIncludesFrom] at h
  | l :: rest, e, i, err, h => by
    unfold processIncludesFrom at h
    by_cases hswl : startsWithInclude l.data = true
    · rw [hswl] at h
      simp only [if_pos rfl] at h
      match hE : extincMatch l.data with
      | some n =>
        rw [hE] at h
        exact processIncludesFrom_error_only rest _ _ err h
      | none =>
        rw [hE] at h
        match hI : intincMatch l.data with
        | some n =>
          rw [hI] at h
          exact processIncludesFrom_error_only rest _ _ err h
        | none =>
          rw [hI] at h
          exact (Except.error.inj h).symm
    · rw [Bool.not_eq_true] at hswl
      rw [hswl] at h
      simp only [Bool.false_eq_true, if_false] at h
      exact processIncludesFrom_error_only rest _ _ err h

theorem allIncludesFrom_error_of_bad : ∀ (files : List File) (acc : List String × List String),
    (∃ f ∈ files, ∃ l ∈ f.lines, startsWithInclude l.data = true
      ∧ extincMatch l.data = none ∧ intincMatch l.data = none) →
    allIncludesFrom files acc = .error .parseError
  | [], _, h => absurd h (by simp)
  | f0 :: rest, acc, h => by
    unfold allIncludesFrom
    rcases h with ⟨f, hf, hbad⟩
    rcases List.mem_cons.mp hf with rfl | hfr
    · rw [show processIncludes f = .error .parseError from
        processIncludesFrom_error_of_bad f.lines [] [] hbad]
    · match hP : processIncludes f0 with
      | .error e =>
        rw [processIncludesFrom_error_only f0.lines [] [] e hP]
      | .ok r =>
        exact allIncludesFrom_error_of_bad rest _ ⟨f, hfr, hbad⟩

/-- C4: if any input file contains a line beginning with `#include` that
matches neither the angle-bracket external form nor the quoted internal
form, the run terminates with the parse error; `main` only opens and
writes the output file after `createCombined` returns, so an error result
means no output file is written (no partial output exists). -/
theorem C4_fail_fast (listing : List String) (content : String → List String)
    (m : Meta) (picked : List String)
    (hpick : orderFiles handpick listing = .ok picked)
    (fn : String) (hfn : fn ∈ picked)
    (hext : splitextExt fn = ".c" ∨ splitextExt fn = ".h")
    (l : Line) (hl : l ∈ mkLines fn (content fn))
    (hsw : startsWithInclude l.data = true)
    (hex : extincMatch l.data = none) (hin : intincMatch l.data = none) :
    mainModel listing content m = .error .parseError := by
  unfold mainModel
  rw [hpick]
  dsimp only
  have hmem : File.mk fn (mkLines fn (content fn))
      ∈ (picked.filter (fun fn => decide (splitextExt fn = ".c" ∨ splitextExt fn = ".h"))).map
        (fun fn => File.mk fn (mkLines fn (content fn))) :=
    List.mem_map_of_mem _ (List.mem_filter.mpr ⟨hfn, by simpa using hext⟩)
  rw [show allIncludes
      ((picked.filter (fun fn => decide (splitextExt fn = ".c" ∨ splitextExt fn = ".h"))).map
        (fun fn => File.mk fn (mkLines fn (content fn)))) = .error .parseError from
    allIncludesFrom_error_of_bad _ _ ⟨_, hmem, l, hl, hsw, hex, hin⟩]

/-- Witness for C4: a quoted include that is not a `duk` name aborts the
run. -/
theorem C4_fail_fast_witness :
    mainModel ("bad.c" :: "duk_internal.h" :: handpick)
      (fun fn => if fn = "bad.c" then ["#include \"stdio.h\""] else [])
      (Meta.mk 10500 "c" "d" [] []) = .error .parseError := by
  apply C4_fail_fast ("bad.c" :: "duk_internal.h" :: handpick)
    (fun fn => if fn = "bad.c" then ["#include \"stdio.h\""] else [])
    (Meta.mk 10500 "c" "d" [] [])
    (handpick ++ ["bad.c", "duk_internal.h"]) rfl "bad.c"
    (by decide) (by decide) (Line.mk "bad.c" 1 "#include \"stdio.h\"") (by decide)
    (by decide) (by decide) (by decide)

/-! Step lemmas: how `processLines` treats one line, by branch. -/

theorem processLines_nil (fuel : Nat) (files : List File)
    (processed : List String) (st : EmitSt) :
    processLines fuel files [] processed st = .ok (processed, st) := by
  rw [processLines.eq_def]

theorem processLines_cons_none (fuel : Nat) (files : List File) (l : Line) (rest : List Line)
    (processed : List String) (st : EmitSt) (h : intincMatch l.data = none) :
    processLines fuel files (l :: rest) processed st
      = processLines fuel files rest processed (emitLine st l) := by
  rw [processLines.eq_def]
  simp only [h]

theorem processLines_cons_keep (fuel : Nat) (files : List File) (l : Line) (rest : List Line)
    (processed : List String) (st : EmitSt) (n : String) (h : intincMatch l.data = some n)
    (hk : n = "duktape.h" ∨ n = "duk_custom.h") :
    processLines fuel files (l :: rest) processed st
      = processLines fuel files rest processed (emitLine st l) := by
  rw [processLines.eq_def]
  simp only [h, if_pos hk]

theorem processLines_cons_miss (fuel : Nat) (files : List File) (l : Line) (rest : List Line)
    (processed : List String) (st : EmitSt) (n : String) (h : intincMatch l.data = some n)
    (hk : ¬(n = "duktape.h" ∨ n = "duk_custom.h")) (hf : findFile files n = none) :
    processLines fuel files (l :: rest) processed st = .error .assertFail := by
  rw [processLines.eq_def]
  simp only [h, if_neg hk, hf]

theorem processLines_cons_dup (fuel : Nat) (files : List File) (l : Line) (rest : List Line)
    (processed : List String) (st : EmitSt) (n : String) (finc : File)
    (h : intincMatch l.data = some n) (hk : ¬(n = "duktape.h" ∨ n = "duk_custom.h"))
    (hf : findFile files n = some finc) (hp : finc.filename ∈ processed) :
    processLines fuel files (l :: rest) processed st
      = match emitStr st (alreadyIncluded finc.filename) with
        | .error e => .error e
        | .ok st2 => processLines fuel files rest processed st2 := by
  rw [processLines.eq_def]
  simp only [h, if_neg hk, hf, if_pos hp]

theorem processLines_cons_zero (files : List File) (l : Line) (rest : List Line)
    (processed : List String) (st : EmitSt) (n : String) (finc : File)
    (h : intincMatch l.data = some n) (hk : ¬(n = "duktape.h" ∨ n = "duk_custom.h"))
    (hf : findFile files n = some finc) (hp : finc.filename ∉ processed) :
    processLines 0 files (l :: rest) processed st = .error .outOfFuel := by
  rw [processLines.eq_def]
  simp only [h, if_neg hk, hf, if_neg hp]

theorem processLines_cons_rec (fuel' : Nat) (files : List File) (l : Line) (rest : List Line)
    (processed : List String) (st : EmitSt) (n : String) (finc : File)
    (h : intincMatch l.data = some n) (hk : ¬(n = "duktape.h" ∨ n = "duk_custom.h"))
    (hf : findFile files n = some finc) (hp : finc.filename ∉ processed) :
    processLines (fuel' + 1) files (l :: rest) processed st
      = match processLines fuel' files finc.lines (finc.filename :: processed) st with
        | .error e => .error e
        | .ok (p2, st2) => processLines (fuel' + 1) files rest p2 st2 := by
  rw [processLines.eq_def]
  simp only [h, if_neg hk, hf, if_neg hp]

theorem processLinesE_unfold (fuel : Nat) (files : List File) :
    processLinesE fuel files = expandStep files (fun ls p s =>
      match fuel with
      | 0 => .error .outOfFuel
      | fuel' + 1 => processLinesE fuel' files ls p s) := by
  cases fuel <;> rfl

/-- The structural clone agrees with `processLines` everywhere. -/
theorem processLinesE_eq : ∀ (fuel : Nat) (files : List File) (lines : List Line)
    (processed : List String) (st : EmitSt),
    processLinesE fuel files lines processed st
      = processLines fuel files lines processed st := by
  intro fuel files lines processed st
  induction fuel, files, lines, processed, st using processLines.induct with
  | case1 fuel files processed st =>
    rw [processLines_nil, processLinesE_unfold]
    rfl
  | case2 fuel files processed st l rest hint ih =>
    rw [processLines_cons_none _ _ _ _ _ _ hint, processLinesE_unfold]
    simp only [expandStep, hint]
    rw [← processLinesE_unfold]
    exact ih
  | case3 fuel files processed st l rest n hint hk ih =>
    rw [processLines_cons_keep _ _ _ _ _ _ _ hint hk, processLinesE_unfold]
    simp only [expandStep, hint, if_pos hk]
    rw [← processLinesE_unfold]
    exact ih
  | case4 fuel files processed st l rest n hint hk hf =>
    rw [processLines_cons_miss _ _ _ _ _ _ _ hint hk hf, processLinesE_unfold]
    simp only [expandStep, hint, if_neg hk, hf]
  | case5 fuel files processed st l rest n hint hk finc hf hpr e hstr =>
    rw [processLines_cons_dup _ _ _ _ _ _ _ finc hint hk hf hpr, hstr, processLinesE_unfold]
    simp only [expandStep, hint, if_neg hk, hf, if_pos hpr, hstr]
  | case6 fuel files processed st l rest n hint hk finc hf hpr st2 hstr ih =>
    rw [processLines_cons_dup _ _ _ _ _ _ _ finc hint hk hf hpr, hstr, processLinesE_unfold]
    simp only [expandStep, hint, if_neg hk, hf, if_pos hpr, hstr]
    rw [← processLinesE_unfold]
    exact ih
  | case7 files processed st l rest n hint hk finc hf hpr =>
    rw [processLines_cons_zero _ _ _ _ _ _ finc hint hk hf hpr, processLinesE_unfold]
    simp only [expandStep, hint, if_neg hk, hf, if_neg hpr]
  | case8 files processed st l rest n hint hk finc hf hpr fuel' e hrec ih =>
    rw [processLines_cons_rec _ _ _ _ _ _ _ finc hint hk hf hpr, hrec, processLinesE_unfold]
    simp only [expandStep, hint, if_neg hk, hf, if_neg hpr]
    rw [ih, hrec]
  | case9 files processed st l rest n hint hk finc hf hpr fuel' p2 st2 hrec ih1 ih2 =>
    rw [processLines_cons_rec _ _ _ _ _ _ _ finc hint hk hf hpr, hrec, processLinesE_unfold]
    simp only [expandStep, hint, if_neg hk, hf, if_neg hpr]
    rw [ih1, hrec]
    show processLinesE (fuel' + 1) files rest p2 st2 = processLines (fuel' + 1) files rest p2 st2
    exact ih2

/-- Emission never reads the output buffer: running `processLines` from a
state with `r ++ s` in the buffer gives the same verdict and appends the
same lines as running it from `s`. -/
theorem processLines_frame : ∀ (fuel : Nat) (files : List File) (lines : List Line)
    (processed : List String) (st : EmitSt) (r : List OutLine),
    processLines fuel files lines processed (EmitSt.mk (r ++ st.res) st.fname st.lineno)
      = (processLines fuel files lines processed st).map
          (fun x => (x.1, EmitSt.mk (r ++ x.2.res) x.2.fname x.2.lineno)) := by
  intro fuel files lines processed st
  induction fuel, files, lines, processed, st using processLines.induct with
  | case1 fuel files processed st =>
    intro r
    rw [processLines_nil, processLines_nil]
    rfl
  | case2 fuel files processed st l rest h ih =>
    intro r
    rw [processLines_cons_none _ _ _ _ _ _ h, processLines_cons_none _ _ _ _ _ _ h]
    have hemit : emitLine (EmitSt.mk (r ++ st.res) st.fname st.lineno) l
        = EmitSt.mk (r ++ (emitLine st l).res) (emitLine st l).fname (emitLine st l).lineno := by
      unfold emitLine
      rcases st with ⟨sres, sf, sl⟩
      by_cases hc : sf = some l.filename ∧ sl = some l.lineno
      · simp [if_pos hc, List.append_assoc]
      · simp [if_neg hc, List.append_assoc]
    rw [hemit]
    exact ih r
  | case3 fuel files processed st l rest n h hk ih =>
    intro r
    rw [processLines_cons_keep _ _ _ _ _ _ _ h hk, processLines_cons_keep _ _ _ _ _ _ _ h hk]
    have hemit : emitLine (EmitSt.mk (r ++ st.res) st.fname st.lineno) l
        = EmitSt.mk (r ++ (emitLine st l).res) (emitLine st l).fname (emitLine st l).lineno := by
      unfold emitLine
      rcases st with ⟨sres, sf, sl⟩
      by_cases hc : sf = some l.filename ∧ sl = some l.lineno
      · simp [if_pos hc, List.append_assoc]
      · simp [if_neg hc, List.append_assoc]
    rw [hemit]
    exact ih r
  | case4 fuel files processed st l rest n h hk hf =>
    intro r
    rw [processLines_cons_miss _ _ _ _ _ _ _ h hk hf,
      processLines_cons_miss _ _ _ _ _ _ _ h hk hf]
    rfl
  | case5 fuel files processed st l rest n h hk finc hf hp e hstr =>
    intro r
    rw [processLines_cons_dup _ _ _ _ _ _ _ finc h hk hf hp,
      processLines_cons_dup _ _ _ _ _ _ _ finc h hk hf hp]
    rcases st with ⟨sres, sf, sl⟩
    cases sl with
    | none => rfl
    | some k => simp [emitStr] at hstr
  | case6 fuel files processed st l rest n h hk finc hf hp st2 hstr ih =>
    intro r
    rw [processLines_cons_dup _ _ _ _ _ _ _ finc h hk hf hp,
      processLines_cons_dup _ _ _ _ _ _ _ finc h hk hf hp]
    rcases st with ⟨sres, sf, sl⟩
    cases sl with
    | none => simp [emitStr] at hstr
    | some k =>
      simp only [emitStr] at hstr ⊢
      cases hstr
      simpa [List.append_assoc] using ih r
  | case7 files processed st l rest n h hk finc hf hp =>
    intro r
    rw [processLines_cons_zero _ _ _ _ _ _ finc h hk hf hp,
      processLines_cons_zero _ _ _ _ _ _ finc h hk hf hp]
    rfl
  | case8 files processed st l rest n h hk finc hf hp fuel' e hrec ih =>
    intro r
    rw [processLines_cons_rec _ _ _ _ _ _ _ finc h hk hf hp,
      processLines_cons_rec _ _ _ _ _ _ _ finc h hk hf hp]
    have := ih r
    rw [show EmitSt.mk (r ++ st.res) st.fname st.lineno
        = EmitSt.mk (r ++ st.res) st.fname st.lineno from rfl] at this
    rw [this, hrec]
    rfl
  | case9 files processed st l rest n h hk finc hf hp fuel' p2 st2 hrec ih1 ih2 =>
    intro r
    rw [processLines_cons_rec _ _ _ _ _ _ _ finc h hk hf hp,
      processLines_cons_rec _ _ _ _ _ _ _ finc h hk hf hp]
    rw [ih1 r, hrec]
    exact ih2 r

/-! Helper lemmas for the expansion ledger. -/

theorem findFile_filename (files : List File) (n : String) (f : File)
    (h : findFile files n = some f) : f.filename = n := by
  unfold findFile at h
  have := List.find?_some h
  simpa using this

theorem findFile_mem (files : List File) (n : String) (f : File)
    (h : findFile files n = some f) : f ∈ files :=
  List.mem_of_find?_eq_some h

theorem alreadyIncluded_inj {a b : String} (h : alreadyIncluded a = alreadyIncluded b) :
    a = b := by
  unfold alreadyIncluded at h
  have hd : "/* already included: ".data ++ (a.data ++ " */".data)
      = "/* already included: ".data ++ (b.data ++ " */".data) := by
    have := congrArg String.data h
    simpa [String.data_append] using this
  have h2 : a.data ++ " */".data = b.data ++ " */".data :=
    List.append_cancel_left hd
  exact String.ext (List.append_cancel_right h2)

theorem contentsOf_append (d1 d2 : List OutLine) :
    contentsOf (d1 ++ d2) = contentsOf d1 ++ contentsOf d2 :=
  List.filterMap_append d1 d2 _

theorem emittable_cons_keep (l : Line) (rest : List Line)
    (h : intincMatch l.data = none) :
    emittable (l :: rest) = l :: emittable rest := by
  unfold emittable
  rw [List.filter_cons, if_pos]
  rw [h]

theorem emittable_cons_special (l : Line) (rest : List Line) (n : String)
    (h : intincMatch l.data = some n) (hk : n = "duktape.h" ∨ n = "duk_custom.h") :
    emittable (l :: rest) = l :: emittable rest := by
  unfold emittable
  rw [List.filter_cons, if_pos]
  rw [h]
  simpa using hk

theorem emittable_cons_drop (l : Line) (rest : List Line) (n : String)
    (h : intincMatch l.data = some n) (hk : ¬(n = "duktape.h" ∨ n = "duk_custom.h")) :
    emittable (l :: rest) = emittable rest := by
  unfold emittable
  rw [List.filter_cons, if_neg]
  rw [h]
  simpa using hk

theorem encLines_cons_none (l : Line) (rest : List Line) (m : String)
    (h : intincMatch l.data = none) :
    encLines (l :: rest) m = encLines rest m := by
  unfold encLines
  rw [List.filter_cons, if_neg]
  simp [h]

theorem encLines_cons_special (l : Line) (rest : List Line) (n m : String)
    (h : intincMatch l.data = some n) (hk : n = "duktape.h" ∨ n = "duk_custom.h") :
    encLines (l :: rest) m = encLines rest m := by
  unfold encLines
  rw [List.filter_cons, if_neg]
  simp only [h, decide_eq_true_eq, not_and, not_not, Option.some.injEq]
  intro hnm
  subst hnm
  exact hk

theorem encLines_cons_inc (l : Line) (rest : List Line) (n m : String)
    (h : intincMatch l.data = some n) (hk : ¬(n = "duktape.h" ∨ n = "duk_custom.h")) :
    encLines (l :: rest) m = (if m = n then 1 else 0) + encLines rest m := by
  unfold encLines
  rw [List.filter_cons]
  by_cases hmn : m = n
  · subst hmn
    rw [if_pos (by simp [h, hk]), List.length_cons, if_pos rfl]
    omega
  · rw [if_neg (by simp [h]; intro he; exact absurd he.symm hmn), if_neg hmn]
    omega

theorem emit_chunk_spec (st : EmitSt) (l : Line) :
    ∃ e, (emitLine st l).res = st.res ++ e ∧ contentsOf e = [l]
      ∧ ∀ s, e.count (OutLine.lit s) = 0 := by
  by_cases hc : st.fname = some l.filename ∧ st.lineno = some l.lineno
  · exact ⟨[.content l], by simp [emitLine, hc], by simp [contentsOf], by simp⟩
  · exact ⟨[.mark l.lineno l.filename, .content l], by simp [emitLine, hc],
      by simp [contentsOf], by simp⟩

theorem emitStr_ok {st : EmitSt} {s : String} {st2 : EmitSt}
    (h : emitStr st s = .ok st2) :
    st2.res = st.res ++ [.lit s] ∧ st2.fname = st.fname
      ∧ ∃ k, st.lineno = some k ∧ st2.lineno = some (k + 1) := by
  unfold emitStr at h
  match hl : st.lineno with
  | none => rw [hl] at h; exact absurd h (by simp)
  | some k =>
    rw [hl] at h
    have := Except.ok.inj h
    subst this
    exact ⟨rfl, rfl, k, rfl, rfl⟩

/-- Ledger of one `processLines` call: the processed set grows by a
duplicate-free block `newly` of headers resolved and expanded during the
call; the appended content lines are exactly the emittable lines of the
scanned `lines` plus, once each, the emittable lines of every file in
`newly`; and for every name `n`, the number of appended already-included
placeholders for `n`, plus one if `n` was newly expanded, equals the
number of expandable directives naming `n` in the scanned lines and the
newly expanded files. -/
theorem processLines_master : ∀ (fuel : Nat) (files : List File) (lines : List Line)
    (processed : List String) (st : EmitSt), ∀ (p' : List String) (st' : EmitSt),
    processLines fuel files lines processed st = .ok (p', st') →
    ∃ (newly : List String) (d : List OutLine),
      st'.res = st.res ++ d
      ∧ p' = newly ++ processed
      ∧ newly.Nodup
      ∧ (∀ h ∈ newly, h ∉ processed ∧ (findFile files h).isSome)
      ∧ (contentsOf d).Perm
          (emittable lines ++ (newly.map (fun h => emittable (fileLines files h))).flatten)
      ∧ (∀ n : String,
          d.count (OutLine.lit (alreadyIncluded n)) + (if n ∈ newly then 1 else 0)
            = encLines lines n + (newly.map (fun h => encLines (fileLines files h) n)).sum) := by
  intro fuel files lines processed st
  induction fuel, files, lines, processed, st using processLines.induct with
  | case1 fuel files processed st =>
    intro p' st' h
    rw [processLines_nil] at h
    simp only [Except.ok.injEq, Prod.mk.injEq] at h
    obtain ⟨rfl, rfl⟩ := h
    exact ⟨[], [], by simp, by simp, List.nodup_nil, by simp,
      by simp [contentsOf, emittable], by simp [encLines]⟩
  | case2 fuel files processed st l rest hint ih =>
    intro p' st' h
    rw [processLines_cons_none _ _ _ _ _ _ hint] at h
    obtain ⟨newly, d, hres, hp, hnd, hmem, hperm, hcount⟩ := ih p' st' h
    obtain ⟨e, he, hce, hcnt0⟩ := emit_chunk_spec st l
    refine ⟨newly, e ++ d, ?_, hp, hnd, hmem, ?_, ?_⟩
    · rw [hres, he, List.append_assoc]
    · rw [contentsOf_append, hce, emittable_cons_keep l rest hint, List.cons_append]
      exact hperm.cons l
    · intro n
      rw [List.count_append, hcnt0 (alreadyIncluded n), encLines_cons_none l rest n hint]
      simpa using hcount n
  | case3 fuel files processed st l rest n hint hk ih =>
    intro p' st' h
    rw [processLines_cons_keep _ _ _ _ _ _ _ hint hk] at h
    obtain ⟨newly, d, hres, hp, hnd, hmem, hperm, hcount⟩ := ih p' st' h
    obtain ⟨e, he, hce, hcnt0⟩ := emit_chunk_spec st l
    refine ⟨newly, e ++ d, ?_, hp, hnd, hmem, ?_, ?_⟩
    · rw [hres, he, List.append_assoc]
    · rw [contentsOf_append, hce, emittable_cons_special l rest n hint hk, List.cons_append]
      exact hperm.cons l
    · intro m
      rw [List.count_append, hcnt0 (alreadyIncluded m), encLines_cons_special l rest n m hint hk]
      simpa using hcount m
  | case4 fuel files processed st l rest n hint hk hf =>
    intro p' st' h
    rw [processLines_cons_miss _ _ _ _ _ _ _ hint hk hf] at h
    exact absurd h (by simp)
  | case5 fuel files processed st l rest n hint hk finc hf hpr e hstr =>
    intro p' st' h
    rw [processLines_cons_dup _ _ _ _ _ _ _ finc hint hk hf hpr, hstr] at h
    exact absurd h (by simp)
  | case6 fuel files processed st l rest n hint hk finc hf hpr st2 hstr ih =>
    intro p' st' h
    rw [processLines_cons_dup _ _ _ _ _ _ _ finc hint hk hf hpr, hstr] at h
    obtain ⟨newly, d, hres, hp, hnd, hmem, hperm, hcount⟩ := ih p' st' h
    have hfn : finc.filename = n := findFile_filename files n finc hf
    subst hfn
    obtain ⟨hr2, _, _, _, _⟩ := emitStr_ok hstr
    refine ⟨newly, .lit (alreadyIncluded finc.filename) :: d, ?_, hp, hnd, hmem, ?_, ?_⟩
    · rw [hres, hr2, List.append_assoc]
      rfl
    · rw [show contentsOf (OutLine.lit (alreadyIncluded finc.filename) :: d)
          = contentsOf d from rfl,
        emittable_cons_drop l rest finc.filename hint hk]
      exact hperm
    · intro m
      rw [encLines_cons_inc l rest finc.filename m hint hk]
      have hc0 := hcount m
      by_cases hmn : m = finc.filename
      · subst hmn
        have hcnt : (OutLine.lit (alreadyIncluded finc.filename) :: d).count
            (OutLine.lit (alreadyIncluded finc.filename))
            = d.count (OutLine.lit (alreadyIncluded finc.filename)) + 1 := by
          rw [List.count_cons]
          simp
        rw [hcnt, if_pos rfl]
        omega
      · have hcnt : (OutLine.lit (alreadyIncluded finc.filename) :: d).count
            (OutLine.lit (alreadyIncluded m))
            = d.count (OutLine.lit (alreadyIncluded m)) := by
          rw [List.count_cons]
          have hne : alreadyIncluded finc.filename ≠ alreadyIncluded m :=
            fun hc => hmn (alreadyIncluded_inj hc).symm
          simp [hne]
        rw [hcnt, if_neg hmn]
        omega
  | case7 files processed st l rest n hint hk finc hf hpr =>
    intro p' st' h
    rw [processLines_cons_zero _ _ _ _ _ _ finc hint hk hf hpr] at h
    exact absurd h (by simp)
  | case8 files processed st l rest n hint hk finc hf hpr fuel' e hrec ih =>
    intro p' st' h
    rw [processLines_cons_rec _ _ _ _ _ _ _ finc hint hk hf hpr, hrec] at h
    exact absurd h (by simp)
  | case9 files processed st l rest n hint hk finc hf hpr fuel' p2 st2 hrec ih1 ih2 =>
    intro p' st' h
    rw [processLines_cons_rec _ _ _ _ _ _ _ finc hint hk hf hpr, hrec] at h
    obtain ⟨newly1, d1, hres1, hp1, hnd1, hmem1, hperm1, hcount1⟩ :=
      ih1 p2 st2 hrec
    obtain ⟨newly2, d2, hres2, hp2, hnd2, hmem2, hperm2, hcount2⟩ := ih2 p' st' h
    have hfn : finc.filename = n := findFile_filename files n finc hf
    subst hfn
    have hfl : fileLines files finc.filename = finc.lines := by
      unfold fileLines
      rw [hf]
    have hm2 : ∀ x ∈ newly2, x ∉ newly1 ∧ x ≠ finc.filename ∧ x ∉ processed := by
      intro x hx
      have hnp2 := (hmem2 x hx).1
      rw [hp1] at hnp2
      refine ⟨fun hc => hnp2 (List.mem_append.mpr (Or.inl hc)), ?_, ?_⟩
      · intro hc
        exact hnp2 (List.mem_append.mpr (Or.inr (hc ▸ List.mem_cons_self _ _)))
      · intro hc
        exact hnp2 (List.mem_append.mpr (Or.inr (List.mem_cons_of_mem _ hc)))
    have hm1 : ∀ x ∈ newly1, x ≠ finc.filename ∧ x ∉ processed := by
      intro x hx
      have := (hmem1 x hx).1
      exact ⟨fun hc => this (hc ▸ List.mem_cons_self _ _),
        fun hc => this (List.mem_cons_of_mem _ hc)⟩
    refine ⟨newly2 ++ newly1 ++ [finc.filename], d1 ++ d2, ?_, ?_, ?_, ?_, ?_, ?_⟩
    · rw [hres2, hres1, List.append_assoc]
    · rw [hp2, hp1]
      simp [List.append_assoc]
    · rw [List.append_assoc, List.nodup_append]
      refine ⟨hnd2, ?_, ?_⟩
      · rw [List.nodup_append]
        refine ⟨hnd1, List.nodup_singleton _, ?_⟩
        intro x hx
        simp only [List.mem_singleton]
        exact fun hc => (hm1 x hx).1 hc
      · intro x hx hx2
        rcases List.mem_append.mp hx2 with hx1 | hxf
        · exact (hm2 x hx).1 hx1
        · exact (hm2 x hx).2.1 (List.mem_singleton.mp hxf)
    · intro x hx
      rcases List.mem_append.mp hx with hx' | hxf
      · rcases List.mem_append.mp hx' with hx2 | hx1
        · exact ⟨(hm2 x hx2).2.2, (hmem2 x hx2).2⟩
        · exact ⟨(hm1 x hx1).2, (hmem1 x hx1).2⟩
      · rw [List.mem_singleton.mp hxf]
        exact ⟨hpr, by rw [hf]; rfl⟩
    · rw [contentsOf_append, emittable_cons_drop l rest finc.filename hint hk,
        ← Multiset.coe_eq_coe] at *
      rw [← Multiset.coe_add] at *
      simp only [List.map_append, List.flatten_append, ← Multiset.coe_add, List.map_cons,
        List.map_nil, List.flatten_cons, List.flatten_nil, List.append_nil, hfl] at *
      rw [hperm1, hperm2]
      abel
    · intro m
      have h1 := hcount1 m
      have h2 := hcount2 m
      rw [List.count_append, encLines_cons_inc l rest finc.filename m hint hk]
      simp only [List.map_append, List.sum_append, List.map_cons, List.map_nil,
        List.sum_cons, List.sum_nil, hfl] at *
      have hsplit : (if m ∈ newly2 ++ newly1 ++ [finc.filename] then 1 else 0)
          = (if m ∈ newly2 then 1 else 0) + (if m ∈ newly1 then 1 else 0)
            + (if m = finc.filename then 1 else 0) := by
        by_cases hq2 : m ∈ newly2
        · have := hm2 m hq2
          simp [hq2, List.mem_append, this.1, this.2.1]
        · by_cases hq1 : m ∈ newly1
          · have := hm1 m hq1
            simp [hq1, hq2, List.mem_append, this.1]
          · by_cases hqf : m = finc.filename
            · subst hqf
              simp [hq1, hq2, List.mem_append]
            · simp [hq1, hq2, hqf, List.mem_append]
      rw [hsplit]
      omega

/-! Termination of header expansion (claim C5). -/

theorem unprocCount_mono : ∀ (files : List File) (p1 p2 : List String),
    (∀ x ∈ p1, x ∈ p2) → unprocCount files p2 ≤ unprocCount files p1
  | [], _, _, _ => Nat.le_refl 0
  | f :: rest, p1, p2, h => by
    have ih := unprocCount_mono rest p1 p2 h
    unfold unprocCount at ih ⊢
    rw [List.filter_cons, List.filter_cons]
    by_cases h2 : f.filename ∈ p2
    · rw [if_neg (by simp [h2])]
      by_cases h1 : f.filename ∈ p1
      · rw [if_neg (by simp [h1])]
        exact ih
      · rw [if_pos (by simpa using h1)]
        simp only [List.length_cons]
        omega
    · have h1 : f.filename ∉ p1 := fun hc => h2 (h _ hc)
      rw [if_pos (by simpa using h2), if_pos (by simpa using h1)]
      simp only [List.length_cons]
      omega

theorem unprocCount_strict : ∀ (files : List File) (finc : File) (processed : List String),
    finc ∈ files → finc.filename ∉ processed →
    unprocCount files (finc.filename :: processed) < unprocCount files processed
  | [], finc, _, h, _ => absurd h (List.not_mem_nil finc)
  | f :: rest, finc, processed, h, hnp => by
    have hmono := unprocCount_mono rest processed (finc.filename :: processed)
      (fun x hx => List.mem_cons_of_mem _ hx)
    unfold unprocCount at hmono ⊢
    rw [List.filter_cons, List.filter_cons]
    rcases List.mem_cons.mp h with rfl | hr
    · rw [if_neg (by simp), if_pos (by simpa using hnp)]
      simp only [List.length_cons]
      omega
    · have ihr := unprocCount_strict rest finc processed hr hnp
      unfold unprocCount at ihr
      by_cases hf : f.filename ∈ processed
      · rw [if_neg (by simp [hf]), if_neg (by simp [List.mem_cons, hf])]
        exact ihr
      · by_cases hfx : f.filename = finc.filename
        · rw [if_neg (by simp [List.mem_cons, hfx]), if_pos (by simpa using hf)]
          simp only [List.length_cons]
          omega
        · rw [if_pos (by simp [List.mem_cons, hf, hfx]), if_pos (by simpa using hf)]
          simp only [List.length_cons]
          omega

/-- With fuel exceeding the number of not-yet-processed files, the fueled
model never exhausts its fuel: the recursion of `processHeader` is
bounded because every recursive descent first marks an unprocessed file
as processed. -/
theorem processLines_fuel_sufficient : ∀ (fuel : Nat) (files : List File)
    (lines : List Line) (processed : List String) (st : EmitSt),
    unprocCount files processed + 1 ≤ fuel →
    processLines fuel files lines processed st ≠ .error .outOfFuel := by
  intro fuel files lines processed st
  induction fuel, files, lines, processed, st using processLines.induct with
  | case1 fuel files processed st =>
    intro _
    rw [processLines_nil]
    simp
  | case2 fuel files processed st l rest hint ih =>
    intro hfuel
    rw [processLines_cons_none _ _ _ _ _ _ hint]
    exact ih hfuel
  | case3 fuel files processed st l rest n hint hk ih =>
    intro hfuel
    rw [processLines_cons_keep _ _ _ _ _ _ _ hint hk]
    exact ih hfuel
  | case4 fuel files processed st l rest n hint hk hf =>
    intro _
    rw [processLines_cons_miss _ _ _ _ _ _ _ hint hk hf]
    simp
  | case5 fuel files processed st l rest n hint hk finc hf hpr e hstr =>
    intro _
    rw [processLines_cons_dup _ _ _ _ _ _ _ finc hint hk hf hpr, hstr]
    have : e ≠ .outOfFuel := by
      unfold emitStr at hstr
      match hl : st.lineno with
      | none =>
        rw [hl] at hstr
        have := Except.error.inj hstr
        subst this
        simp
      | some k => rw [hl] at hstr; exact absurd hstr (by simp)
    simp [this]
  | case6 fuel files processed st l rest n hint hk finc hf hpr st2 hstr ih =>
    intro hfuel
    rw [processLines_cons_dup _ _ _ _ _ _ _ finc hint hk hf hpr, hstr]
    exact ih hfuel
  | case7 files processed st l rest n hint hk finc hf hpr =>
    intro hfuel
    exact absurd hfuel (by omega)
  | case8 files processed st l rest n hint hk finc hf hpr fuel' e hrec ih =>
    intro hfuel
    rw [processLines_cons_rec _ _ _ _ _ _ _ finc hint hk hf hpr, hrec]
    have hdec : unprocCount files (finc.filename :: processed) + 1 ≤ fuel' := by
      have := unprocCount_strict files finc processed (findFile_mem files n finc hf) hpr
      omega
    have := ih hdec
    rw [hrec] at this
    simpa using this
  | case9 files processed st l rest n hint hk finc hf hpr fuel' p2 st2 hrec ih1 ih2 =>
    intro hfuel
    rw [processLines_cons_rec _ _ _ _ _ _ _ finc hint hk hf hpr, hrec]
    obtain ⟨newly, d, _, hp2, _, _, _, _⟩ :=
      processLines_master fuel' files finc.lines (finc.filename :: processed) st p2 st2 hrec
    have hsub : unprocCount files p2 ≤ unprocCount files (finc.filename :: processed) := by
      apply unprocCount_mono
      intro x hx
      rw [hp2]
      exact List.mem_append.mpr (Or.inr hx)
    have hstrict := unprocCount_strict files finc processed (findFile_mem files n finc hf) hpr
    exact ih2 (by omega)

/-! Per-header accounting of the expansion output (claims C1, C9). -/

theorem emittable_sub (lines : List Line) : ∀ x ∈ emittable lines, x ∈ lines :=
  fun _ hx => (List.mem_filter.mp hx).1

theorem wf_fileLines_tag (files : List File) (wf : wfFiles files) (g : String) :
    ∀ l ∈ fileLines files g, l.filename = g := by
  intro l hl
  unfold fileLines at hl
  match hfind : findFile files g with
  | none => rw [hfind] at hl; exact absurd hl (List.not_mem_nil l)
  | some f =>
    rw [hfind] at hl
    rw [wf.1 f (findFile_mem files g f hfind) l hl]
    exact findFile_filename files g f hfind

theorem findFile_of_mem : ∀ (files : List File), (files.map File.filename).Nodup →
    ∀ f ∈ files, findFile files f.filename = some f
  | [], _, f, hf => absurd hf (List.not_mem_nil f)
  | g :: rest, hnd, f, hf => by
    unfold findFile
    rcases List.mem_cons.mp hf with rfl | hr
    · exact List.find?_cons_of_pos _ (by simp)
    · rw [List.find?_cons_of_neg]
      · exact findFile_of_mem rest (by simpa using (List.nodup_cons.mp (by simpa using hnd)).2) f hr
      · have hgne : g.filename ≠ f.filename := by
          intro hc
          have : g.filename ∈ rest.map File.filename := hc ▸ List.mem_map_of_mem _ hr
          exact (List.nodup_cons.mp (by simpa using hnd)).1 this
        simp [hgne]

theorem filter_tag_flatten (files : List File) (wf : wfFiles files) :
    ∀ (newly : List String), newly.Nodup → ∀ h : String,
    ((newly.map (fun g => emittable (fileLines files g))).flatten).filter
        (fun l => decide (l.filename = h))
      = if h ∈ newly then emittable (fileLines files h) else []
  | [], _, h => by simp
  | g :: rest, hnd, h => by
    rw [List.map_cons, List.flatten_cons, List.filter_append,
      filter_tag_flatten files wf rest (List.nodup_cons.mp hnd).2 h]
    by_cases hgh : g = h
    · subst hgh
      have hself : (emittable (fileLines files g)).filter (fun l => decide (l.filename = g))
          = emittable (fileLines files g) :=
        List.filter_eq_self.mpr (fun l hl => by
          simp [wf_fileLines_tag files wf g l (emittable_sub _ l hl)])
      rw [hself, if_neg (List.nodup_cons.mp hnd).1, if_pos (List.mem_cons_self g rest)]
      simp
    · have hnone : (emittable (fileLines files g)).filter (fun l => decide (l.filename = h))
          = [] := by
        rw [List.filter_eq_nil_iff]
        intro l hl
        simp [wf_fileLines_tag files wf g l (emittable_sub _ l hl), hgh]
      rw [hnone, List.nil_append]
      by_cases hh : h ∈ rest
      · rw [if_pos hh, if_pos (List.mem_cons_of_mem g hh)]
      · rw [if_neg hh, if_neg (by
          simp only [List.mem_cons, hh, or_false]
          exact fun hc => hgh hc.symm)]

/-- Full accounting of one root expansion started with an empty processed
set: `p'` lists exactly the headers expanded (each once); for every name
`h`, the content lines tagged `h` are the emittable lines of file `h`
once if `h ∈ p'`, plus once more if `h` is the root itself; and the
placeholder count for `n` plus one-if-expanded equals the number of
expandable directives naming `n` across the root and the expanded
headers. -/
theorem root_expansion_report (fuel : Nat) (files : List File) (root : File)
    (fn : Option String) (ln : Option Nat) (p' : List String) (st' : EmitSt)
    (wf : wfFiles files) (hrootmem : root ∈ files)
    (hrun : processLines fuel files root.lines [] (EmitSt.mk [] fn ln) = .ok (p', st')) :
    p'.Nodup
    ∧ (∀ h : String,
        ((contentsOf st'.res).filter (fun l => decide (l.filename = h))).Perm
          ((if h = root.filename then emittable root.lines else [])
            ++ (if h ∈ p' then emittable (fileLines files h) else [])))
    ∧ (∀ n : String,
        st'.res.count (OutLine.lit (alreadyIncluded n)) + (if n ∈ p' then 1 else 0)
          = encLines root.lines n + (p'.map (fun g => encLines (fileLines files g) n)).sum) := by
  obtain ⟨newly, d, hres, hp, hnd, _, hperm, hcount⟩ :=
    processLines_master fuel files root.lines [] _ p' st' hrun
  rw [List.append_nil] at hp
  subst hp
  rw [List.nil_append] at hres
  subst hres
  refine ⟨hnd, ?_, hcount⟩
  intro h
  have hfil := hperm.filter (fun l => decide (l.filename = h))
  rw [List.filter_append, filter_tag_flatten files wf p' hnd h] at hfil
  by_cases hroot : h = root.filename
  · subst hroot
    have hself : (emittable root.lines).filter (fun l => decide (l.filename = root.filename))
        = emittable root.lines :=
      List.filter_eq_self.mpr (fun l hl => by
        simp [wf.1 root hrootmem l (emittable_sub _ l hl)])
    rw [hself] at hfil
    rw [if_pos rfl]
    exact hfil
  · have hnone : (emittable root.lines).filter (fun l => decide (l.filename = h)) = [] := by
      rw [List.filter_eq_nil_iff]
      intro l hl
      simp only [wf.1 root hrootmem l (emittable_sub _ l hl), decide_eq_true_eq]
      exact fun hc => hroot hc.symm
    rw [hnone, List.nil_append] at hfil
    rw [if_neg hroot, List.nil_append]
    exact hfil

/-- C5: header expansion terminates on every include graph, cycles
included, because the processed set is consulted and extended before the
recursive descent, so the recursion depth is bounded by the number of
files (any fuel above the unprocessed-file count is never exhausted); and
in the scenario where the root includes B and then C, and C includes B
again, B's content appears exactly once and the second encounter yields
exactly one placeholder comment. -/
theorem C5_cycle_safety :
    (∀ (fuel : Nat) (files : List File) (lines : List Line)
      (processed : List String) (st : EmitSt),
      unprocCount files processed + 1 ≤ fuel →
      processLines fuel files lines processed st ≠ .error .outOfFuel)
    ∧ (processLines 4 filesBC rootBC.lines [] (EmitSt.mk [] none none)).map
        (fun x => ((contentsOf x.2.res).countP (fun l => decide (l.filename = "duk_b.h")),
          x.2.res.count (OutLine.lit (alreadyIncluded "duk_b.h"))))
      = .ok (1, 1) :=
  ⟨processLines_fuel_sufficient, by rw [← processLinesE_eq]; rfl⟩

/-- Witness for C5: the cycle scenario itself never runs out of fuel. -/
theorem C5_cycle_safety_witness :
    processLines 4 filesBC rootBC.lines [] (EmitSt.mk [] none none) ≠ .error .outOfFuel :=
  C5_cycle_safety.1 4 filesBC rootBC.lines [] (EmitSt.mk [] none none) (by decide)

/-- Counterexample to C1 as stated: in `filesA` the header `duk_a.h` is
reachable from the root and includes the root back, so the root header
itself is a header reachable from the root whose content line
(`duk_internal.h` line 1) appears twice in the output, not exactly
once. -/
theorem C1_counterexample :
    (processLines 3 filesA rootA.lines [] (EmitSt.mk [] none none)).map
      (fun x => (contentsOf x.2.res).countP
        (fun l => decide (l.filename = "duk_internal.h" ∧ l.lineno = 1)))
      = .ok 2 := by
  rw [← processLinesE_eq]
  rfl

/-- C1 (amended): for every internal header expanded from the root other
than the root header itself, its content lines appear in the output
exactly once, and the number of placeholder comments for it is exactly
its include-encounter count minus one (each subsequent include yields one
placeholder and no content); the root's own content appears once, or
twice when some reachable header includes the root back. -/
theorem C1_at_most_once (fuel : Nat) (files : List File) (root : File)
    (fn : Option String) (ln : Option Nat) (p' : List String) (st' : EmitSt)
    (wf : wfFiles files) (hroot : findFile files "duk_internal.h" = some root)
    (hrun : processLines fuel files root.lines [] (EmitSt.mk [] fn ln) = .ok (p', st')) :
    (∀ h ∈ p', h ≠ root.filename →
      ((contentsOf st'.res).filter (fun l => decide (l.filename = h))).Perm
        (emittable (fileLines files h))
      ∧ st'.res.count (OutLine.lit (alreadyIncluded h)) + 1
        = encLines root.lines h + (p'.map (fun g => encLines (fileLines files g) h)).sum)
    ∧ ((contentsOf st'.res).filter (fun l => decide (l.filename = root.filename))).Perm
        (emittable root.lines
          ++ (if root.filename ∈ p' then emittable root.lines else [])) := by
  have hrootmem := findFile_mem files _ root hroot
  obtain ⟨hnd, hfil, hcnt⟩ := root_expansion_report fuel files root fn ln p' st' wf hrootmem hrun
  constructor
  · intro h hh hne
    constructor
    · have := hfil h
      rw [if_neg hne, if_pos hh, List.nil_append] at this
      exact this
    · have := hcnt h
      rw [if_pos hh] at this
      exact this
  · have hthis := hfil root.filename
    rw [if_pos rfl] at hthis
    by_cases hin : root.filename ∈ p'
    · rw [if_pos hin] at hthis
      rw [if_pos hin]
      have hfr : fileLines files root.filename = root.lines := by
        unfold fileLines
        rw [findFile_of_mem files wf.2 root hrootmem]
      rw [hfr] at hthis
      exact hthis
    · rw [if_neg hin] at hthis
      rw [if_neg hin]
      exact hthis

/-- Witness for C1 (amended) at the `filesBC` scenario, projected to
header `duk_b.h`. -/
theorem C1_at_most_once_witness :
    ((contentsOf stBC.res).filter (fun l => decide (l.filename = "duk_b.h"))).Perm
      (emittable (fileLines filesBC "duk_b.h"))
    ∧ stBC.res.count (OutLine.lit (alreadyIncluded "duk_b.h")) + 1
      = encLines rootBC.lines "duk_b.h"
        + ((["duk_c.h", "duk_b.h"]).map (fun g => encLines (fileLines filesBC g) "duk_b.h")).sum :=
  (C1_at_most_once 4 filesBC rootBC none none ["duk_c.h", "duk_b.h"] stBC
    (by decide) rfl (by rw [← processLinesE_eq]; rfl)).1 "duk_b.h" (by decide) (by decide)

/-- Counterexample to C9 as stated: in `filesAB` both `duk_a.h` and
`duk_b.h` are reachable from the root and both include the root back; at
the first such include the root's content is re-expanded (and the root is
marked processed right there, during its own expansion), so the second
include emits an already-included placeholder for the root instead of
re-expanding — the claim predicts zero such placeholders. -/
theorem C9_counterexample :
    (processLines 5 filesAB rootAB.lines [] (EmitSt.mk [] none none)).map
      (fun x => x.2.res.count (OutLine.lit (alreadyIncluded "duk_internal.h")))
      = .ok 1 := by
  rw [← processLinesE_eq]
  rfl

/-- C9 (amended): the root header is never in the processed set when its
expansion starts (the top-level call passes an empty set), so the first
include of the root encountered during expansion re-expands the root's
content — its content lines then appear twice; but the root is marked
processed at that first re-inclusion, so every further include of the
root produces one placeholder: placeholders for the root plus
one-if-re-expanded equal the number of root-naming directives
encountered. -/
theorem C9_root_reinclusion (fuel : Nat) (files : List File) (root : File)
    (fn : Option String) (ln : Option Nat) (p' : List String) (st' : EmitSt)
    (wf : wfFiles files) (hroot : findFile files "duk_internal.h" = some root)
    (hrun : processLines fuel files root.lines [] (EmitSt.mk [] fn ln) = .ok (p', st')) :
    ((contentsOf st'.res).filter (fun l => decide (l.filename = root.filename))).Perm
      (emittable root.lines
        ++ (if root.filename ∈ p' then emittable root.lines else []))
    ∧ st'.res.count (OutLine.lit (alreadyIncluded root.filename))
        + (if root.filename ∈ p' then 1 else 0)
      = encLines root.lines root.filename
        + (p'.map (fun g => encLines (fileLines files g) root.filename)).sum := by
  have hrootmem := findFile_mem files _ root hroot
  obtain ⟨hnd, hfil, hcnt⟩ := root_expansion_report fuel files root fn ln p' st' wf hrootmem hrun
  constructor
  · have hthis := hfil root.filename
    rw [if_pos rfl] at hthis
    by_cases hin : root.filename ∈ p'
    · rw [if_pos hin] at hthis
      rw [if_pos hin]
      have hfr : fileLines files root.filename = root.lines := by
        unfold fileLines
        rw [findFile_of_mem files wf.2 root hrootmem]
      rw [hfr] at hthis
      exact hthis
    · rw [if_neg hin] at hthis
      rw [if_neg hin]
      exact hthis
  · exact hcnt root.filename

/-- Witness for C9 (amended) at the `filesAB` scenario, where the root is
re-included: its content appears twice and one placeholder accounts for
the second re-inclusion. -/
theorem C9_root_reinclusion_witness :
    ((contentsOf stAB.res).filter (fun l => decide (l.filename = rootAB.filename))).Perm
      (emittable rootAB.lines
        ++ (if rootAB.filename ∈ ["duk_b.h", "duk_internal.h", "duk_a.h"]
            then emittable rootAB.lines else []))
    ∧ stAB.res.count (OutLine.lit (alreadyIncluded rootAB.filename))
        + (if rootAB.filename ∈ ["duk_b.h", "duk_internal.h", "duk_a.h"] then 1 else 0)
      = encLines rootAB.lines rootAB.filename
        + ((["duk_b.h", "duk_internal.h", "duk_a.h"]).map
            (fun g => encLines (fileLines filesAB g) rootAB.filename)).sum :=
  C9_root_reinclusion 5 filesAB rootAB none none
    ["duk_b.h", "duk_internal.h", "duk_a.h"] stAB (by decide) rfl
    (by rw [← processLinesE_eq]; rfl)

/-- Witness for C10 at a concrete emit state. -/
theorem C10_emit_effects_witness :
    (emitLine (EmitSt.mk [] (some "f.c") (some 5)) (Line.mk "g.c" 3 "x")).fname = some "g.c"
    ∧ (emitLine (EmitSt.mk [] (some "f.c") (some 5)) (Line.mk "g.c" 3 "x")).lineno = some 4
    ∧ (∃ d, (emitLine (EmitSt.mk [] (some "f.c") (some 5)) (Line.mk "g.c" 3 "x")).res = [] ++ d
        ∧ d.length ≤ 2)
    ∧ emitStr (EmitSt.mk [] (some "f.c") (some 5)) "y"
        = .ok (EmitSt.mk ([] ++ [.lit "y"]) (some "f.c") (some 6)) :=
  C10_emit_effects (EmitSt.mk [] (some "f.c") (some 5)) (Line.mk "g.c" 3 "x") "y" 5 rfl


/-! Marker correctness (claim C2). -/

theorem replay_append : ∀ (s : Option String × Option Nat) (d1 d2 : List OutLine),
    replay s (d1 ++ d2) = replay (replay s d1) d2 := by
  intro s d1
  induction s, d1 using replay.induct with
  | case1 s => intro d2; rfl
  | case2 s a rest ih => intro d2; exact ih d2
  | case3 s l rest ih => intro d2; exact ih d2
  | case4 s a b rest ih => intro d2; exact ih d2

theorem markOk_append : ∀ (s : Option String × Option Nat) (d1 d2 : List OutLine),
    markOk s d1 = true → markOk (replay s d1) d2 = true → markOk s (d1 ++ d2) = true := by
  intro s d1
  induction s, d1 using markOk.induct with
  | case1 s => intro d2 _ h2; exact h2
  | case2 s a rest ih => intro d2 h1 h2; exact ih d2 h1 h2
  | case3 s n f l rest ih =>
    intro d2 h1 h2
    simp only [List.cons_append, markOk, Bool.and_eq_true, decide_eq_true_eq,
      Bool.not_eq_true'] at h1 ⊢
    obtain ⟨⟨⟨hf, hn⟩, hs⟩, hrest⟩ := h1
    refine ⟨⟨⟨hf, hn⟩, hs⟩, ?_⟩
    apply ih d2 hrest
    have h2b : markOk (replay (some l.filename, some (l.lineno + 1)) rest) d2 = true := h2
    rw [hf, hn] at h2b
    exact h2b
  | case4 s a b tail hnc =>
    intro d2 h1 _
    exfalso
    match tail, hnc with
    | [], _ => simp [markOk] at h1
    | .lit x :: r, _ => simp [markOk] at h1
    | .mark u v :: r, _ => simp [markOk] at h1
    | .content l :: r, hnc => exact hnc l r rfl
  | case5 s l rest ih =>
    intro d2 h1 h2
    simp only [List.cons_append, markOk, Bool.and_eq_true, decide_eq_true_eq] at h1 ⊢
    obtain ⟨hs, hrest⟩ := h1
    exact ⟨hs, ih d2 hrest h2⟩

theorem emitLine_step (st : EmitSt) (l : Line) :
    ∃ e, (emitLine st l).res = st.res ++ e
      ∧ markOk (st.fname, st.lineno) e = true
      ∧ replay (st.fname, st.lineno) e = ((emitLine st l).fname, (emitLine st l).lineno) := by
  by_cases hc : st.fname = some l.filename ∧ st.lineno = some l.lineno
  · refine ⟨[.content l], by simp [emitLine, hc], ?_, ?_⟩
    · simp [markOk, hc.1, hc.2, Prod.ext_iff]
    · simp [replay, emitLine, hc]
  · refine ⟨[.mark l.lineno l.filename, .content l], by simp [emitLine, hc], ?_, ?_⟩
    · have hne : ((st.fname, st.lineno) : Option String × Option Nat)
          ≠ (some l.filename, some l.lineno) := by
        intro hcon
        rw [Prod.ext_iff] at hcon
        exact hc ⟨hcon.1, hcon.2⟩
      simp [markOk, hne]
    · show ((some l.filename : Option String), (some (l.lineno + 1) : Option Nat))
        = ((emitLine st l).fname, (emitLine st l).lineno)
      unfold emitLine
      rw [if_neg hc]

theorem emitStr_step {st : EmitSt} {s : String} {st2 : EmitSt}
    (h : emitStr st s = .ok st2) :
    st2.res = st.res ++ [.lit s]
      ∧ markOk (st.fname, st.lineno) [.lit s] = true
      ∧ replay (st.fname, st.lineno) [.lit s] = (st2.fname, st2.lineno) := by
  obtain ⟨hres, hfn, k, hk, hk2⟩ := emitStr_ok h
  refine ⟨hres, rfl, ?_⟩
  simp [replay, bumpCursor, hk, hfn, hk2]

theorem processLines_markOk : ∀ (fuel : Nat) (files : List File) (lines : List Line)
    (processed : List String) (st : EmitSt), ∀ (p' : List String) (st' : EmitSt),
    processLines fuel files lines processed st = .ok (p', st') →
    ∃ d, st'.res = st.res ++ d
      ∧ markOk (st.fname, st.lineno) d = true
      ∧ replay (st.fname, st.lineno) d = (st'.fname, st'.lineno) := by
  intro fuel files lines processed st
  induction fuel, files, lines, processed, st using processLines.induct with
  | case1 fuel files processed st =>
    intro p' st' h
    rw [processLines_nil] at h
    simp only [Except.ok.injEq, Prod.mk.injEq] at h
    obtain ⟨rfl, rfl⟩ := h
    exact ⟨[], by simp, rfl, rfl⟩
  | case2 fuel files processed st l rest hint ih =>
    intro p' st' h
    rw [processLines_cons_none _ _ _ _ _ _ hint] at h
    obtain ⟨d, hres, hmk, hrp⟩ := ih p' st' h
    obtain ⟨e, he, hemk, herp⟩ := emitLine_step st l
    refine ⟨e ++ d, ?_, ?_, ?_⟩
    · rw [hres, he, List.append_assoc]
    · exact markOk_append _ e d hemk (by rw [herp]; exact hmk)
    · rw [replay_append, herp, hrp]
  | case3 fuel files processed st l rest n hint hk ih =>
    intro p' st' h
    rw [processLines_cons_keep _ _ _ _ _ _ _ hint hk] at h
    obtain ⟨d, hres, hmk, hrp⟩ := ih p' st' h
    obtain ⟨e, he, hemk, herp⟩ := emitLine_step st l
    refine ⟨e ++ d, ?_, ?_, ?_⟩
    · rw [hres, he, List.append_assoc]
    · exact markOk_append _ e d hemk (by rw [herp]; exact hmk)
    · rw [replay_append, herp, hrp]
  | case4 fuel files processed st l rest n hint hk hf =>
    intro p' st' h
    rw [processLines_cons_miss _ _ _ _ _ _ _ hint hk hf] at h
    exact absurd h (by simp)
  | case5 fuel files processed st l rest n hint hk finc hf hpr e hstr =>
    intro p' st' h
    rw [processLines_cons_dup _ _ _ _ _ _ _ finc hint hk hf hpr, hstr] at h
    exact absurd h (by simp)
  | case6 fuel files processed st l rest n hint hk finc hf hpr st2 hstr ih =>
    intro p' st' h
    rw [processLines_cons_dup _ _ _ _ _ _ _ finc hint hk hf hpr, hstr] at h
    obtain ⟨d, hres, hmk, hrp⟩ := ih p' st' h
    obtain ⟨hre, hemk, herp⟩ := emitStr_step hstr
    refine ⟨OutLine.lit (alreadyIncluded finc.filename) :: d, ?_, ?_, ?_⟩
    · rw [hres, hre, List.append_assoc]
      rfl
    · show markOk (st.fname, st.lineno)
        ([OutLine.lit (alreadyIncluded finc.filename)] ++ d) = true
      exact markOk_append _ _ d hemk (by rw [herp]; exact hmk)
    · show replay (st.fname, st.lineno)
        ([OutLine.lit (alreadyIncluded finc.filename)] ++ d) = (st'.fname, st'.lineno)
      rw [replay_append, herp, hrp]
  | case7 files processed st l rest n hint hk finc hf hpr =>
    intro p' st' h
    rw [processLines_cons_zero _ _ _ _ _ _ finc hint hk hf hpr] at h
    exact absurd h (by simp)
  | case8 files processed st l rest n hint hk finc hf hpr fuel' e hrec ih =>
    intro p' st' h
    rw [processLines_cons_rec _ _ _ _ _ _ _ finc hint hk hf hpr, hrec] at h
    exact absurd h (by simp)
  | case9 files processed st l rest n hint hk finc hf hpr fuel' p2 st2 hrec ih1 ih2 =>
    intro p' st' h
    rw [processLines_cons_rec _ _ _ _ _ _ _ finc hint hk hf hpr, hrec] at h
    obtain ⟨d1, hres1, hmk1, hrp1⟩ := ih1 p2 st2 hrec
    obtain ⟨d2, hres2, hmk2, hrp2⟩ := ih2 p' st' h
    refine ⟨d1 ++ d2, ?_, ?_, ?_⟩
    · rw [hres2, hres1, List.append_assoc]
    · exact markOk_append _ d1 d2 hmk1 (by rw [hrp1]; exact hmk2)
    · rw [replay_append, hrp1, hrp2]

theorem emitFileLines_markOk : ∀ (lines : List Line) (st st2 : EmitSt),
    emitFileLines lines st = .ok st2 →
    ∃ d, st2.res = st.res ++ d
      ∧ markOk (st.fname, st.lineno) d = true
      ∧ replay (st.fname, st.lineno) d = (st2.fname, st2.lineno)
  | [], st, st2, h => by
    unfold emitFileLines at h
    have := Except.ok.inj h
    subst this
    exact ⟨[], by simp, rfl, rfl⟩
  | l :: rest, st, st2, h => by
    unfold emitFileLines at h
    match hint : intincMatch l.data with
    | none =>
      rw [hint] at h
      have h2 : emitFileLines rest (emitLine st l) = .ok st2 := h
      obtain ⟨d, hres, hmk, hrp⟩ := emitFileLines_markOk rest _ st2 h2
      obtain ⟨e, he, hemk, herp⟩ := emitLine_step st l
      refine ⟨e ++ d, ?_, ?_, ?_⟩
      · rw [hres, he, List.append_assoc]
      · exact markOk_append _ e d hemk (by rw [herp]; exact hmk)
      · rw [replay_append, herp, hrp]
    | some n =>
      rw [hint] at h
      have h2 : (match emitStr st (includeRemoved n) with
        | .error e => (.error e : Except CErr EmitSt)
        | .ok stm => emitFileLines rest stm) = .ok st2 := h
      match hstr : emitStr st (includeRemoved n) with
      | .error e =>
        rw [hstr] at h2
        exact absurd h2 (by simp)
      | .ok stm =>
        rw [hstr] at h2
        obtain ⟨d, hres, hmk, hrp⟩ := emitFileLines_markOk rest _ st2 h2
        obtain ⟨hre, hemk, herp⟩ := emitStr_step hstr
        refine ⟨OutLine.lit (includeRemoved n) :: d, ?_, ?_, ?_⟩
        · rw [hres, hre, List.append_assoc]
          rfl
        · show markOk (st.fname, st.lineno) ([OutLine.lit (includeRemoved n)] ++ d) = true
          exact markOk_append _ _ d hemk (by rw [herp]; exact hmk)
        · show replay (st.fname, st.lineno)
            ([OutLine.lit (includeRemoved n)] ++ d) = (st2.fname, st2.lineno)
          rw [replay_append, herp, hrp]

theorem emitBody_markOk : ∀ (files : List File) (processed : List String) (st st2 : EmitSt),
    emitBody files processed st = .ok st2 →
    ∃ d, st2.res = st.res ++ d
      ∧ markOk (st.fname, st.lineno) d = true
      ∧ replay (st.fname, st.lineno) d = (st2.fname, st2.lineno)
  | [], processed, st, st2, h => by
    unfold emitBody at h
    have := Except.ok.inj h
    subst this
    exact ⟨[], by simp, rfl, rfl⟩
  | f :: rest, processed, st, st2, h => by
    unfold emitBody at h
    by_cases hmem : f.filename ∈ processed
    · rw [if_pos hmem] at h
      exact emitBody_markOk rest processed st st2 h
    · rw [if_neg hmem] at h
      match hfl : emitFileLines f.lines st with
      | .error e =>
        rw [hfl] at h
        exact absurd h (by simp)
      | .ok stm =>
        rw [hfl] at h
        obtain ⟨d1, hres1, hmk1, hrp1⟩ := emitFileLines_markOk f.lines st stm hfl
        obtain ⟨d2, hres2, hmk2, hrp2⟩ := emitBody_markOk rest processed stm st2 h
        refine ⟨d1 ++ d2, ?_, ?_, ?_⟩
        · rw [hres2, hres1, List.append_assoc]
        · exact markOk_append _ d1 d2 hmk1 (by rw [hrp1]; exact hmk2)
        · rw [replay_append, hrp1, hrp2]

theorem markOk_lits : ∀ (ls : List String),
    markOk (none, none) (ls.map OutLine.lit) = true
  | [] => rfl
  | _ :: rest => markOk_lits rest

theorem replay_lits : ∀ (ls : List String),
    replay (none, none) (ls.map OutLine.lit) = (none, none)
  | [] => rfl
  | _ :: rest => replay_lits rest

/-- The two `createCombined` formulations agree. -/
theorem createCombined_eq_E (fuel : Nat) (files : List File) (m : Meta) :
    createCombined fuel files m = createCombinedE fuel files m := by
  unfold createCombined createCombinedE
  cases hfind : findFile files "duk_internal.h" with
  | none => rfl
  | some root =>
    dsimp only
    rw [processLinesE_eq]

/-- Counterexample to C2 as stated: in `filesK` the line `int tail;`
(origin `duk_a.h` line 3) immediately follows the synthetic placeholder
comment for `duk_b.h`'s skipped re-include and is emitted with NO location
marker before it, because the placeholder occupies exactly the one output
line where the skipped include directive stood, keeping the `#line`
synchronisation intact.  This refutes both the claim's "iff" (the
previous emitted origin is `(duk_a.h, 1)`, so `(duk_a.h, 3)` is not its
successor, yet no marker appears) and the claim that a line following a
synthetic insertion is always preceded by a fresh marker. -/
theorem C2_counterexample :
    (processLines 6 filesK rootK.lines [] (EmitSt.mk [] none none)).map
        (fun x => x.2.res)
      = .ok [OutLine.mark 1 "duk_a.h",
             OutLine.content (Line.mk "duk_a.h" 1 "int a;"),
             OutLine.lit (alreadyIncluded "duk_a.h"),
             OutLine.content (Line.mk "duk_a.h" 3 "int tail;")] := by
  rw [← processLinesE_eq]
  rfl

/-- C2 (amended): in the merged output a location marker is emitted
immediately before an emitted line L if and only if L's origin differs
from the emission cursor's expectation, where the cursor after a content
line of origin `(f, n)` expects `(f, n + 1)` and every synthetic literal
line (banner or placeholder) increments the expected line number while
keeping the file.  So the line following a synthetic insertion re-anchors
with a fresh marker unless its origin is exactly the advanced cursor
position, which happens precisely when the synthetic line replaced one
source line.  `markOk` checks exactly this invariant over the output. -/
theorem C2_marker_iff (fuel : Nat) (files : List File) (m : Meta) (res : List OutLine)
    (h : createCombined fuel files m = .ok res) :
    markOk (none, none) res = true := by
  simp only [createCombined] at h
  match hfind : findFile files "duk_internal.h" with
  | none =>
    rw [hfind] at h
    exact absurd h (by simp)
  | some root =>
    rw [hfind] at h
    have h2 : (match processLines fuel files root.lines []
        (EmitSt.mk (bannerRes m) none none) with
      | .error e => (.error e : Except CErr (List OutLine))
      | .ok (processed, st1) =>
        match emitBody files (forceMarkHeaders files processed) st1 with
        | .error e => .error e
        | .ok st2 => .ok st2.res) = .ok res := h
    match hrun : processLines fuel files root.lines []
        (EmitSt.mk (bannerRes m) none none) with
    | .error e =>
      rw [hrun] at h2
      exact absurd h2 (by simp)
    | .ok (processed, st1) =>
      rw [hrun] at h2
      have h3 : (match emitBody files (forceMarkHeaders files processed) st1 with
        | .error e => (.error e : Except CErr (List OutLine))
        | .ok st2 => .ok st2.res) = .ok res := h2
      match hbody : emitBody files (forceMarkHeaders files processed) st1 with
      | .error e =>
        rw [hbody] at h3
        exact absurd h3 (by simp)
      | .ok st2 =>
        rw [hbody] at h3
        have hres : res = st2.res := (Except.ok.inj h3).symm
        subst hres
        obtain ⟨d1, hres1, hmk1, hrp1⟩ :=
          processLines_markOk fuel files root.lines [] _ processed st1 hrun
        obtain ⟨d2, hres2, hmk2, hrp2⟩ :=
          emitBody_markOk files (forceMarkHeaders files processed) st1 st2 hbody
        rw [hres2, hres1, List.append_assoc]
        apply markOk_append
        · unfold bannerRes
          exact markOk_lits _
        · have hrb : replay (none, none) (bannerRes m) = (none, none) := by
            unfold bannerRes
            exact replay_lits _
          rw [hrb]
          exact markOk_append _ d1 d2 hmk1 (by rw [hrp1]; exact hmk2)

/-- Witness for C2 (amended): a full concrete `createCombined` run passes
the marker checker. -/
theorem C2_marker_iff_witness :
    markOk (none, none) (bannerRes metaZ ++ stBC.res) = true :=
  C2_marker_iff 4 filesBC metaZ (bannerRes metaZ ++ stBC.res)
    (by rw [createCombined_eq_E]; rfl)



/-! External includes (claim C7) and stray internal includes in body
files (claim C8). -/

theorem extinc_not_intinc (s e : String) (h : extincMatch s = some e) :
    intincMatch s = none := by
  unfold extincMatch at h
  unfold intincMatch
  by_cases h13 : s.toList.take 13 = ("#include \"duk").toList
  · exfalso
    have h10 : s.toList.take 10 = "#include <".toList := by
      by_contra hc
      rw [if_neg hc] at h
      exact absurd h (by simp)
    have h10b : s.toList.take 10 = ("#include \"duk").toList.take 10 := by
      rw [← h13, List.take_take]
      norm_num
    rw [h10] at h10b
    exact absurd h10b (by decide)
  · rw [if_neg h13]

theorem countP_data_emittable (lines : List Line) (s : String)
    (hs : intincMatch s = none) :
    (emittable lines).countP (fun l => decide (l.data = s))
      = lines.countP (fun l => decide (l.data = s)) := by
  induction lines with
  | nil => rfl
  | cons l rest ih =>
    rw [List.countP_cons]
    match hint : intincMatch l.data with
    | none =>
      rw [emittable_cons_keep l rest hint, List.countP_cons, ih]
    | some n =>
      by_cases hk : n = "duktape.h" ∨ n = "duk_custom.h"
      · rw [emittable_cons_special l rest n hint hk, List.countP_cons, ih]
      · rw [emittable_cons_drop l rest n hint hk, ih]
        have hne : l.data ≠ s := fun hc => by
          rw [hc, hs] at hint
          exact absurd hint (by simp)
        simp [hne]

theorem countP_data_filter_keep (lines : List Line) (s : String)
    (hs : intincMatch s = none) :
    (lines.filter (fun l => decide (intincMatch l.data = none))).countP
        (fun l => decide (l.data = s))
      = lines.countP (fun l => decide (l.data = s)) := by
  induction lines with
  | nil => rfl
  | cons l rest ih =>
    rw [List.countP_cons, List.filter_cons]
    match hint : intincMatch l.data with
    | none =>
      rw [if_pos (by simp [hint]), List.countP_cons, ih]
    | some n =>
      rw [if_neg (by simp [hint]), ih]
      have hne : l.data ≠ s := fun hc => by
        rw [hc, hs] at hint
        exact absurd hint (by simp)
      simp [hne]

theorem emitFileLines_contents : ∀ (lines : List Line) (st stm : EmitSt),
    emitFileLines lines st = .ok stm →
    ∃ d, stm.res = st.res ++ d
      ∧ contentsOf d = lines.filter (fun l => decide (intincMatch l.data = none))
  | [], st, stm, h => by
    unfold emitFileLines at h
    have := Except.ok.inj h
    subst this
    exact ⟨[], by simp, rfl⟩
  | l :: rest, st, stm, h => by
    unfold emitFileLines at h
    match hint : intincMatch l.data with
    | none =>
      rw [hint] at h
      have h2 : emitFileLines rest (emitLine st l) = .ok stm := h
      obtain ⟨d, hres, hcon⟩ := emitFileLines_contents rest _ stm h2
      obtain ⟨e, he, hce, _⟩ := emit_chunk_spec st l
      refine ⟨e ++ d, by rw [hres, he, List.append_assoc], ?_⟩
      rw [contentsOf_append, hce, hcon, List.filter_cons, if_pos (by simp [hint])]
      rfl
    | some n =>
      rw [hint] at h
      have h2 : (match emitStr st (includeRemoved n) with
        | .error e => (.error e : Except CErr EmitSt)
        | .ok stx => emitFileLines rest stx) = .ok stm := h
      match hstr : emitStr st (includeRemoved n) with
      | .error e =>
        rw [hstr] at h2
        exact absurd h2 (by simp)
      | .ok stx =>
        rw [hstr] at h2
        obtain ⟨d, hres, hcon⟩ := emitFileLines_contents rest _ stm h2
        obtain ⟨hre, _, _, _, _⟩ := emitStr_ok hstr
        refine ⟨OutLine.lit (includeRemoved n) :: d, ?_, ?_⟩
        · rw [hres, hre, List.append_assoc]
          rfl
        · rw [show contentsOf (OutLine.lit (includeRemoved n) :: d) = contentsOf d from rfl,
            hcon, List.filter_cons, if_neg (by simp [hint])]

theorem emitBody_contents : ∀ (files : List File) (processed : List String) (st st2 : EmitSt),
    emitBody files processed st = .ok st2 →
    ∃ d, st2.res = st.res ++ d
      ∧ contentsOf d = ((files.filter (fun f => decide (f.filename ∉ processed))).map
          (fun f => f.lines.filter (fun l => decide (intincMatch l.data = none)))).flatten
  | [], processed, st, st2, h => by
    unfold emitBody at h
    have := Except.ok.inj h
    subst this
    exact ⟨[], by simp, rfl⟩
  | f :: rest, processed, st, st2, h => by
    unfold emitBody at h
    by_cases hmem : f.filename ∈ processed
    · rw [if_pos hmem] at h
      obtain ⟨d, hres, hcon⟩ := emitBody_contents rest processed st st2 h
      refine ⟨d, hres, ?_⟩
      rw [hcon, List.filter_cons, if_neg (by simp [hmem])]
    · rw [if_neg hmem] at h
      match hfl : emitFileLines f.lines st with
      | .error e =>
        rw [hfl] at h
        exact absurd h (by simp)
      | .ok stx =>
        rw [hfl] at h
        obtain ⟨d1, hres1, hcon1⟩ := emitFileLines_contents f.lines st stx hfl
        obtain ⟨d2, hres2, hcon2⟩ := emitBody_contents rest processed stx st2 h
        refine ⟨d1 ++ d2, by rw [hres2, hres1, List.append_assoc], ?_⟩
        rw [contentsOf_append, hcon1, hcon2, List.filter_cons, if_pos (by simp [hmem]),
          List.map_cons, List.flatten_cons]

/-- C7 (amended): external (angle-bracket) include directives are never
recognised as internal, hence never removed, replaced or deduplicated:
every emitted copy of a file\'s content carries each external-include
occurrence verbatim.  The number of copies of the line in the output is
the number of occurrences in the root (once, or twice on root
re-inclusion via the expanded list), plus one per expansion of each
header reachable from the root, plus one per emitted body file; content
of headers never reached from the root is dropped entirely, together
with its external includes. -/
theorem C7_external_includes :
    (∀ s e : String, extincMatch s = some e → intincMatch s = none)
    ∧ (∀ (fuel : Nat) (files : List File) (lines : List Line) (fn : Option String)
        (ln : Option Nat) (p2 : List String) (st2 : EmitSt) (s e : String),
        extincMatch s = some e →
        processLines fuel files lines [] (EmitSt.mk [] fn ln) = .ok (p2, st2) →
        (contentsOf st2.res).countP (fun l => decide (l.data = s))
          = lines.countP (fun l => decide (l.data = s))
            + (p2.map (fun g => (fileLines files g).countP
                (fun l => decide (l.data = s)))).sum)
    ∧ (∀ (files : List File) (processed : List String) (st st2 : EmitSt) (s e : String),
        extincMatch s = some e →
        emitBody files processed st = .ok st2 →
        (contentsOf st2.res).countP (fun l => decide (l.data = s))
          = (contentsOf st.res).countP (fun l => decide (l.data = s))
            + ((files.filter (fun f => decide (f.filename ∉ processed))).map
                (fun f => f.lines.countP (fun l => decide (l.data = s)))).sum) := by
  refine ⟨extinc_not_intinc, ?_, ?_⟩
  · intro fuel files lines fn ln p2 st2 s e hse hrun
    have hs : intincMatch s = none := extinc_not_intinc s e hse
    obtain ⟨newly, d, hres, hp, _, _, hperm, _⟩ :=
      processLines_master fuel files lines [] _ p2 st2 hrun
    rw [List.append_nil] at hp
    subst hp
    rw [List.nil_append] at hres
    subst hres
    rw [hperm.countP_eq (fun l => decide (l.data = s)), List.countP_append,
      List.countP_flatten, List.map_map, countP_data_emittable lines s hs]
    congr 1
    congr 1
    apply List.map_congr_left
    intro g _
    exact countP_data_emittable (fileLines files g) s hs
  · intro files processed st st2 s e hse hbody
    have hs : intincMatch s = none := extinc_not_intinc s e hse
    obtain ⟨d, hres, hcon⟩ := emitBody_contents files processed st st2 hbody
    rw [hres, contentsOf_append, List.countP_append, hcon, List.countP_flatten,
      List.map_map]
    congr 1
    congr 1
    apply List.map_congr_left
    intro f _
    exact countP_data_filter_keep f.lines s hs

/-- Counterexample to C7 as stated: in `filesU` the external name
`stdio.h` is included verbatim by two different files, but
`duk_unused.h` is never reached from the root, its content is dropped by
the force-mark, and the directive line appears only once in the merged
output instead of twice. -/
theorem C7_counterexample :
    (createCombined 3 filesU metaZ).map
        (fun res => (contentsOf res).countP
          (fun l => decide (l.data = "#include <stdio.h>")))
      = .ok 1
    ∧ (filesU.map (fun f => f.lines.countP
        (fun l => decide (l.data = "#include <stdio.h>")))).sum = 2 := by
  constructor
  · rw [createCombined_eq_E]
    rfl
  · rfl

/-- Witness for C7 (amended) at the `filesU` expansion. -/
theorem C7_external_includes_witness :
    (contentsOf stU.res).countP (fun l => decide (l.data = "#include <stdio.h>"))
      = rootU.lines.countP (fun l => decide (l.data = "#include <stdio.h>"))
        + (([] : List String).map (fun g => (fileLines filesU g).countP
            (fun l => decide (l.data = "#include <stdio.h>")))).sum :=
  C7_external_includes.2.1 3 filesU rootU.lines none none [] stU
    "#include <stdio.h>" "stdio.h" rfl (by rw [← processLinesE_eq]; rfl)

theorem emitFileLines_nil (st : EmitSt) : emitFileLines [] st = .ok st := by
  rw [emitFileLines.eq_def]

theorem emitFileLines_cons_none (l : Line) (rest : List Line) (st : EmitSt)
    (h : intincMatch l.data = none) :
    emitFileLines (l :: rest) st = emitFileLines rest (emitLine st l) := by
  rw [emitFileLines.eq_def]
  simp only [h]

theorem emitFileLines_cons_inc (l : Line) (rest : List Line) (st : EmitSt) (n : String)
    (h : intincMatch l.data = some n) :
    emitFileLines (l :: rest) st
      = match emitStr st (includeRemoved n) with
        | .error e => .error e
        | .ok st2 => emitFileLines rest st2 := by
  rw [emitFileLines.eq_def]
  simp only [h]

theorem emitFileLines_ok : ∀ (lines : List Line) (st : EmitSt) (k : Nat),
    st.lineno = some k →
    ∃ st2 k2, emitFileLines lines st = .ok st2 ∧ st2.lineno = some k2
  | [], st, k, hk => ⟨st, k, emitFileLines_nil st, hk⟩
  | l :: rest, st, k, hk => by
    match hint : intincMatch l.data with
    | none =>
      rw [emitFileLines_cons_none l rest st hint]
      exact emitFileLines_ok rest (emitLine st l) (l.lineno + 1)
        (by unfold emitLine; split <;> rfl)
    | some n =>
      have hstr : emitStr st (includeRemoved n)
          = .ok (EmitSt.mk (st.res ++ [.lit (includeRemoved n)]) st.fname (some (k + 1))) := by
        unfold emitStr
        rw [hk]
      rw [emitFileLines_cons_inc l rest st n hint, hstr]
      exact emitFileLines_ok rest _ (k + 1) rfl

theorem emitFileLines_append : ∀ (xs ys : List Line) (st : EmitSt),
    emitFileLines (xs ++ ys) st
      = match emitFileLines xs st with
        | .error e => .error e
        | .ok stm => emitFileLines ys stm
  | [], ys, st => by
    rw [List.nil_append, emitFileLines_nil]
  | x :: xs, ys, st => by
    rw [List.cons_append]
    match hint : intincMatch x.data with
    | none =>
      rw [emitFileLines_cons_none x (xs ++ ys) st hint,
        emitFileLines_cons_none x xs st hint]
      exact emitFileLines_append xs ys (emitLine st x)
    | some n =>
      rw [emitFileLines_cons_inc x (xs ++ ys) st n hint,
        emitFileLines_cons_inc x xs st n hint]
      match hstr : emitStr st (includeRemoved n) with
      | .error e => rfl
      | .ok stm =>
        exact emitFileLines_append xs ys stm

/-- C8 (amended): during the body-file emission pass, provided the
emission cursor's line counter has been initialised by some earlier
emitted line, a residual internal-include directive at any position is
replaced by exactly one synthetic "include removed" comment appended at
that exact position (right after the output of the lines before it), and
the pass continues and succeeds.  (Without that proviso the degenerate
uninitialised-cursor case aborts with a TypeError, see the
counterexample.) -/
theorem C8_stray_include (pre : List Line) (l : Line) (post : List Line) (st : EmitSt)
    (k : Nat) (hk : st.lineno = some k) (n : String)
    (hint : intincMatch l.data = some n) :
    ∃ st1 st2 st3,
      emitFileLines pre st = .ok st1
      ∧ emitStr st1 (includeRemoved n) = .ok st2
      ∧ st2.res = st1.res ++ [.lit (includeRemoved n)]
      ∧ emitFileLines (pre ++ l :: post) st = emitFileLines post st2
      ∧ emitFileLines (pre ++ l :: post) st = .ok st3 := by
  obtain ⟨st1, k1, hpre, hk1⟩ := emitFileLines_ok pre st k hk
  have hstr : emitStr st1 (includeRemoved n)
      = .ok (EmitSt.mk (st1.res ++ [.lit (includeRemoved n)]) st1.fname (some (k1 + 1))) := by
    unfold emitStr
    rw [hk1]
  have hsplit : emitFileLines (pre ++ l :: post) st
      = emitFileLines post (EmitSt.mk (st1.res ++ [.lit (includeRemoved n)])
          st1.fname (some (k1 + 1))) := by
    rw [emitFileLines_append, hpre]
    show emitFileLines (l :: post) st1 = _
    rw [emitFileLines_cons_inc l post st1 n hint, hstr]
  obtain ⟨st3, k3, hpost, _⟩ := emitFileLines_ok post
    (EmitSt.mk (st1.res ++ [.lit (includeRemoved n)]) st1.fname (some (k1 + 1))) (k1 + 1) rfl
  exact ⟨st1, EmitSt.mk (st1.res ++ [.lit (includeRemoved n)]) st1.fname (some (k1 + 1)), st3,
    hpre, hstr, rfl, hsplit, by rw [hsplit, hpost]⟩


/-- Counterexample to C8 as stated: in `filesS` the header `duk_x.h` is
absorbed during expansion but contributes no output line, so when the
body pass hits the stray `#include "duk_x.h"` in `a.c` the emission
cursor is still `None`, and `emit_state[1] += 1` raises a TypeError: the
stray internal include DOES cause the run to fail in this degenerate
case, instead of yielding an "include removed" comment. -/
theorem C8_counterexample : createCombined 2 filesS metaZ = .error .typeError := by
  rw [createCombined_eq_E]
  rfl

/-- Witness for C8 at a concrete body file. -/
theorem C8_stray_include_witness :
    ∃ st1 st2 st3,
      emitFileLines [Line.mk "a.c" 1 "int x;"] (EmitSt.mk [] none (some 1)) = .ok st1
      ∧ emitStr st1 (includeRemoved "duk_foo.h") = .ok st2
      ∧ st2.res = st1.res ++ [.lit (includeRemoved "duk_foo.h")]
      ∧ emitFileLines ([Line.mk "a.c" 1 "int x;"]
          ++ Line.mk "a.c" 2 "#include \"duk_foo.h\"" :: [Line.mk "a.c" 3 "int y;"])
          (EmitSt.mk [] none (some 1)) = emitFileLines [Line.mk "a.c" 3 "int y;"] st2
      ∧ emitFileLines ([Line.mk "a.c" 1 "int x;"]
          ++ Line.mk "a.c" 2 "#include \"duk_foo.h\"" :: [Line.mk "a.c" 3 "int y;"])
          (EmitSt.mk [] none (some 1)) = .ok st3 :=
  C8_stray_include [Line.mk "a.c" 1 "int x;"] (Line.mk "a.c" 2 "#include \"duk_foo.h\"")
    [Line.mk "a.c" 3 "int y;"] (EmitSt.mk [] none (some 1)) 1 rfl "duk_foo.h" (by decide)


end Duk
